import Mathlib

/-!
# Verification of the TypeSpec → Drizzle ORM generator core

Shallow embedding of the IR builder (`src/ir/builder.ts`), the relation
graph builder (`src/ir/relation-graph.ts`) and the naming helpers
(`src/generators/naming.ts`) of the typespec-drizzle-orm-generator
repository, together with proofs about the embedded definitions.

JavaScript strings are modelled as Lean `String`s manipulated through
their character lists; JavaScript `Map`s (insertion ordered) are
modelled as association lists; a JavaScript `TypeError` raised while
computing a result is modelled by an `Option` result being `none`.
-/

namespace Spec2Proof

/-! ## String helpers (JS string primitives used by the source) -/

/-- JS `s.endsWith(t)`: `t` is a suffix of `s`. -/
def strEndsWith (s t : String) : Bool :=
  t.data.isSuffixOf s.data

/-- JS `s.slice(0, -n)` for `n ≤ s.length`: all but the last `n` characters. -/
def strDropLast (s : String) (n : Nat) : String :=
  ⟨s.data.take (s.data.length - n)⟩

/-! ## `src/generators/naming.ts` -/

/-- `toSnakeCase` from `naming.ts`:
`str.replace(/[A-Z]/g, (letter) => "_" + letter.toLowerCase())`. -/
def toSnakeCase (str : String) : String :=
  ⟨str.data.flatMap (fun c => if 'A' ≤ c ∧ c ≤ 'Z' then ['_', c.toLower] else [c])⟩

/-- The vowels tested by the regex `/[aeiou]y$/` in `pluralize`. -/
def vowels : List Char := ['a', 'e', 'i', 'o', 'u']

/-- JS `/[aeiou]y$/.test(word)`: the word ends in a vowel followed by `y`. -/
def vowelYEnd (word : String) : Bool :=
  match word.data.reverse with
  | 'y' :: c :: _ => vowels.contains c
  | _ => false

/-- JS `/(?:s|sh|ch|x|z)$/.test(word)`: the word ends in `s`, `sh`, `ch`,
`x` or `z`. -/
def esEnd (word : String) : Bool :=
  match word.data.reverse with
  | 'h' :: c :: _ => c == 's' || c == 'c'
  | c :: _ => c == 's' || c == 'x' || c == 'z'
  | [] => false

/-- `pluralize` from `naming.ts`: consonant+`y` → `ies`; `s`/`sh`/`ch`/`x`/`z`
→ append `es`; otherwise append `s`. -/
def pluralize (word : String) : String :=
  if strEndsWith word "y" && !(vowelYEnd word) then strDropLast word 1 ++ "ies"
  else if esEnd word then word ++ "es"
  else word ++ "s"

/-- `toTableVariableName` from `naming.ts`:
`name[0].toLowerCase() + name.slice(1)`, then `pluralize`.
`name[0]` on the empty string is `undefined`, so `.toLowerCase()` throws a
`TypeError`; that crash is modelled by returning `none`. -/
def toTableVariableName (name : String) : Option String :=
  match name.data with
  | [] => none
  | c :: cs => some (pluralize ⟨c.toLower :: cs⟩)

/-! ## `deriveOneRelationName` from `src/ir/relation-graph.ts` -/

/-- Strip one trailing `"Id"` (`fieldName.slice(0, -2)`) if present. -/
def deriveOneRelationName (fieldName : String) : String :=
  if strEndsWith fieldName "Id" then strDropLast fieldName 2
  else fieldName

/-! ## IR data model (`src/ir/types.ts`, as consumed by the builders) -/

/-- `FieldType` — resolved column type (tagged union from `types.ts`).
The `uuid` encoding and the `varchar` length are carried verbatim. -/
inductive FieldType where
  | text
  | varchar (length : Int)
  | integer
  | bigint
  | real
  | doublePrecision
  | boolean
  | timestamp
  | uuid (encoding : String)
  | enum (enumName : String) (values : List String)
deriving DecidableEq

/-- The `references` payload of a `FieldDef`: target table and field,
as written by `buildIR` (`{ tableName, fieldName }`). -/
structure FieldReference where
  tableName : String
  fieldName : String
deriving DecidableEq

/-- The `uuid` payload of a `FieldDef`. -/
structure UuidSpec where
  encoding : String
  autoGenerate : Bool
deriving DecidableEq

/-- The `constraints` payload of a `FieldDef`; each sub-field optional,
the whole object present only when at least one sub-field was set. -/
structure ConstraintsDef where
  minValue : Option Int := none
  maxValue : Option Int := none
  check : Option String := none
  unique : Option Bool := none
deriving DecidableEq

/-- A JavaScript value as it can appear in a TypeSpec default: literal
wrappers (`{ value }`), enum members (`{ kind: "EnumMember", value?, name? }`),
primitives, `null`, or some other object. -/
inductive JSValue where
  | nullv
  | str (s : String)
  | num (n : Int)
  | boolv (b : Bool)
  | withValue (v : JSValue)
  | enumMemberV (value : JSValue) (memberName : Option String)
  | enumMemberN (memberName : Option String)
  | otherObj
deriving DecidableEq

/-- `FieldDef` from `types.ts` (field shape written by `buildIR`). -/
structure FieldDef where
  name : String
  columnName : String
  type : FieldType
  nullable : Bool
  uuid : Option UuidSpec := none
  references : Option FieldReference := none
  createdAt : Bool := false
  updatedAt : Bool := false
  visibility : Option String := none
  defaultValue : Option JSValue := none
  constraints : Option ConstraintsDef := none
deriving DecidableEq

/-- `PrimaryKeyDef` from `types.ts`. -/
structure PrimaryKeyDef where
  tableName : String
  columns : List String
  isComposite : Bool
deriving DecidableEq

/-- `ForeignKeyDef` from `types.ts` (composite foreign keys). -/
structure ForeignKeyDef where
  name : String
  columns : List String
  foreignTable : String
  foreignColumns : List String
deriving DecidableEq

/-- `IndexDef` from `types.ts`. -/
structure IndexDef where
  name : String
  columns : List String
  unique : Bool
deriving DecidableEq

/-- `UniqueConstraintDef` from `types.ts`. -/
structure UniqueConstraintDef where
  name : String
  columns : List String
deriving DecidableEq

/-- `TableDef` from `types.ts` (the per-table IR record). -/
structure TableDef where
  name : String
  service : String
  tableName : String
  primaryKey : PrimaryKeyDef
  fields : List FieldDef
  foreignKeys : List ForeignKeyDef
  isJunction : Bool
  indexes : List IndexDef
  uniqueConstraints : List UniqueConstraintDef
deriving DecidableEq

/-- `EnumDef` from `types.ts`. -/
structure EnumDef where
  name : String
  sqlName : String
  values : List String
deriving DecidableEq

/-! ## Relation types (`src/ir/relation-graph.ts`) -/

/-- `OneRelation`: a one-to-one / many-to-one relation on the FK holder side. -/
structure OneRelation where
  name : String
  fromTable : String
  fromField : String
  toTable : String
  toField : String
  optional : Bool
deriving DecidableEq

/-- `ManyRelation`: the reverse collection side of a foreign key. -/
structure ManyRelation where
  name : String
  table : String
deriving DecidableEq

/-- The `junction` payload of a `ManyThroughRelation`. -/
structure JunctionInfo where
  table : String
  fromField : String
  toField : String
deriving DecidableEq

/-- `ManyThroughRelation`: a many-to-many relation through a junction table. -/
structure ManyThroughRelation where
  name : String
  fromTable : String
  fromField : String
  toTable : String
  toField : String
  junction : JunctionInfo
deriving DecidableEq

/-- `Relation = OneRelation | ManyRelation | ManyThroughRelation`. -/
inductive Relation where
  | one (r : OneRelation)
  | many (r : ManyRelation)
  | manyThrough (r : ManyThroughRelation)
deriving DecidableEq

/-- `RelationGraph = Map<string, Relation[]>`, modelled as an association
list in key insertion order (JS `Map` iteration order). -/
def RelationGraph : Type := List (String × List Relation)

instance : DecidableEq RelationGraph :=
  inferInstanceAs (DecidableEq (List (String × List Relation)))

/-- JS `graph.get(k)`: value of the first (only) entry with key `k`. -/
def mget (g : RelationGraph) (k : String) : Option (List Relation) :=
  match g with
  | [] => none
  | (k', v) :: rest => if k' = k then some v else mget rest k

/-- JS `graph.set(k, v)`: update in place if the key exists (keeping its
position), otherwise append a new entry. -/
def mset (g : RelationGraph) (k : String) (v : List Relation) : RelationGraph :=
  match g with
  | [] => [(k, v)]
  | (k', v') :: rest =>
    if k' = k then (k', v) :: rest else (k', v') :: mset rest k v

/-- JS `graph.get(k)?.push(r)`: append `r` to the list stored at `k` if the
key exists, otherwise do nothing. -/
def mpush (g : RelationGraph) (k : String) (r : Relation) : RelationGraph :=
  match g with
  | [] => []
  | (k', v) :: rest =>
    if k' = k then (k', v ++ [r]) :: rest else (k', v) :: mpush rest k r

/-- JS `graph.get(k)?.push(mk(name))` where computing `name` may throw:
optional chaining first checks that `k` is a live key — only then is the
relation (and its possibly-throwing `name`) evaluated. -/
def mpushOpt (g : RelationGraph) (k : String) (mk : String → Relation)
    (nm : Option String) : Option RelationGraph :=
  if (mget g k).isSome then nm.map (fun n => mpush g k (mk n)) else some g

/-! ## `buildRelationGraph` (`src/ir/relation-graph.ts`) -/

/-- Initialization pass: `graph.set(table.name, [])` for every table. -/
def initGraph (tables : List TableDef) : RelationGraph :=
  tables.foldl (fun g t => mset g t.name []) []

/-- Pass 1, body of the field loop: for a field with `references`, push the
`OneRelation` onto the holder's list and (unless the holder is a junction)
push the reverse `ManyRelation` onto the target's list. -/
def pass1Field (t : TableDef) (g : RelationGraph) (f : FieldDef) :
    Option RelationGraph :=
  match f.references with
  | none => some g
  | some ref =>
    let g1 := mpush g t.name (.one
      { name := deriveOneRelationName f.name
        fromTable := t.name
        fromField := f.name
        toTable := ref.tableName
        toField := ref.fieldName
        optional := f.nullable })
    if t.isJunction then some g1
    else mpushOpt g1 ref.tableName
      (fun n => .many { name := n, table := t.name })
      (toTableVariableName t.name)

/-- Pass 1, body of the table loop. -/
def pass1Table (g : RelationGraph) (t : TableDef) : Option RelationGraph :=
  t.fields.foldlM (pass1Field t) g

/-- The two pushes performed by pass 2 for a junction table `t` whose two
reference-carrying fields are `fieldA → refA` and `fieldB → refB`: side A's
`ManyThroughRelation` first, then side B's. -/
def pass2Push (g : RelationGraph) (t : TableDef) (fieldA fieldB : FieldDef)
    (refA refB : FieldReference) : Option RelationGraph := do
  let g1 ← mpushOpt g refA.tableName
    (fun n => .manyThrough
      { name := n
        fromTable := refA.tableName
        fromField := refA.fieldName
        toTable := refB.tableName
        toField := refB.fieldName
        junction :=
          { table := t.name
            fromField := fieldA.name
            toField := fieldB.name } })
    (toTableVariableName refB.tableName)
  mpushOpt g1 refB.tableName
    (fun n => .manyThrough
      { name := n
        fromTable := refB.tableName
        fromField := refB.fieldName
        toTable := refA.tableName
        toField := refA.fieldName
        junction :=
          { table := t.name
            fromField := fieldB.name
            toField := fieldA.name } })
    (toTableVariableName refA.tableName)

/-- Pass 2, body of the table loop: a junction table with exactly two
reference-carrying fields pushes a `ManyThroughRelation` on both sides;
anything else is skipped. -/
def pass2Table (g : RelationGraph) (t : TableDef) : Option RelationGraph :=
  if t.isJunction then
    match t.fields.filter (fun f => f.references.isSome) with
    | [fieldA, fieldB] =>
      match fieldA.references, fieldB.references with
      | some refA, some refB => pass2Push g t fieldA fieldB refA refB
      | _, _ => some g
    | _ => some g
  else some g

/-- `buildRelationGraph` from `src/ir/relation-graph.ts`: initialize one
empty list per table, then pass 1 (direct foreign keys), then pass 2
(junctions). `none` models a thrown `TypeError`. -/
def buildRelationGraph (tables : List TableDef) : Option RelationGraph := do
  let g1 ← tables.foldlM pass1Table (initGraph tables)
  tables.foldlM pass2Table g1

/-! ## Concrete fixtures (subset of the repository's bookstore test domain) -/

/-- An empty primary key record for fixtures. -/
def noPk : PrimaryKeyDef := { tableName := "", columns := [], isComposite := false }

/-- A minimal table fixture. -/
def mkTable (name : String) (fields : List FieldDef) (isJunction : Bool) : TableDef :=
  { name := name, service := "svc", tableName := name, primaryKey := noPk
    fields := fields, foreignKeys := [], isJunction := isJunction
    indexes := [], uniqueConstraints := [] }

/-- A minimal field fixture. -/
def mkField (name : String) (nullable : Bool) (refs : Option FieldReference) : FieldDef :=
  { name := name, columnName := name, type := .text, nullable := nullable
    references := refs }

/-- Fixture: `Author` with no reference fields. -/
def tAuthor : TableDef := mkTable "Author" [mkField "authorId" false none] false

/-- Fixture: `Book` with `authorId` referencing `Author.authorId`. -/
def tBook : TableDef :=
  mkTable "Book"
    [mkField "bookId" false none,
     mkField "authorId" false (some { tableName := "Author", fieldName := "authorId" })]
    false

/-- Fixture: `Genre` with no reference fields. -/
def tGenre : TableDef := mkTable "Genre" [mkField "genreId" false none] false

/-- Fixture: junction `BookGenre` referencing `Book` and `Genre`. -/
def tBookGenre : TableDef :=
  mkTable "BookGenre"
    [mkField "bookId" false (some { tableName := "Book", fieldName := "bookId" }),
     mkField "genreId" false (some { tableName := "Genre", fieldName := "genreId" })]
    true

/-- Fixture: the four-table bookstore subset. -/
def bookstore : List TableDef := [tAuthor, tBook, tGenre, tBookGenre]

/-! ## Association-list lemmas for the graph operations -/

theorem mget_mset (g : RelationGraph) (k : String) (v : List Relation) (n : String) :
    mget (mset g k v) n = if n = k then some v else mget g n := by
  induction g with
  | nil =>
    simp only [mset, mget]
    by_cases h : n = k
    · rw [if_pos h.symm, if_pos h]
    · rw [if_neg (Ne.symm h), if_neg h]
  | cons hd tl ih =>
    obtain ⟨k', v'⟩ := hd
    simp only [mset]
    by_cases hk : k' = k
    · rw [if_pos hk]
      simp only [mget]
      by_cases hn : k' = n
      · rw [if_pos hn, if_pos (hn.symm.trans hk)]
      · have hnk : ¬ n = k := fun hh => hn (hk.trans hh.symm)
        rw [if_neg hn, if_neg hnk, if_neg hn]
    · rw [if_neg hk]
      simp only [mget]
      by_cases hn : k' = n
      · have hnk : ¬ n = k := fun hh => hk (hn.trans hh)
        rw [if_pos hn, if_neg hnk, if_pos hn]
      · rw [if_neg hn, ih, if_neg hn]

theorem mget_mpush (g : RelationGraph) (k : String) (r : Relation) (n : String) :
    mget (mpush g k r) n =
      if n = k then (mget g k).map (fun l => l ++ [r]) else mget g n := by
  induction g with
  | nil =>
    simp only [mpush, mget]
    split_ifs <;> simp
  | cons hd tl ih =>
    obtain ⟨k', v'⟩ := hd
    simp only [mpush]
    by_cases hk : k' = k
    · rw [if_pos hk]
      simp only [mget]
      by_cases hn : k' = n
      · rw [if_pos hn, if_pos (hn.symm.trans hk), if_pos hk]
        simp
      · have hnk : ¬ n = k := fun hh => hn (hk.trans hh.symm)
        rw [if_neg hn, if_neg hnk, if_neg hn]
    · rw [if_neg hk]
      simp only [mget]
      by_cases hn : k' = n
      · have hnk : ¬ n = k := fun hh => hk (hn.trans hh)
        rw [if_pos hn, if_neg hnk, if_pos hn]
      · rw [if_neg hn, ih, if_neg hk, if_neg hn]

theorem keys_mpush (g : RelationGraph) (k : String) (r : Relation) :
    (mpush g k r).map Prod.fst = g.map Prod.fst := by
  induction g with
  | nil => simp [mpush]
  | cons hd tl ih =>
    obtain ⟨k', v'⟩ := hd
    simp only [mpush]
    split_ifs with hk <;> simp [ih]

theorem keys_mset (g : RelationGraph) (k : String) (v : List Relation) :
    (mset g k v).map Prod.fst =
      if (mget g k).isSome then g.map Prod.fst else g.map Prod.fst ++ [k] := by
  induction g with
  | nil => simp [mset, mget]
  | cons hd tl ih =>
    obtain ⟨k', v'⟩ := hd
    simp only [mset, mget]
    by_cases hk : k' = k
    · simp [if_pos hk]
    · simp only [if_neg hk, List.map_cons, ih]
      by_cases hs : (mget tl k).isSome <;> simp [hs]

theorem mget_isSome_iff (g : RelationGraph) (k : String) :
    (mget g k).isSome ↔ k ∈ g.map Prod.fst := by
  induction g with
  | nil => simp [mget]
  | cons hd tl ih =>
    obtain ⟨k', v'⟩ := hd
    simp only [mget, List.map_cons, List.mem_cons]
    by_cases hk : k' = k
    · simp [hk]
    · rw [if_neg hk]
      constructor
      · exact fun h => Or.inr (ih.mp h)
      · rintro (h | h)
        · exact absurd h.symm hk
        · exact ih.mpr h

theorem mpushOpt_keys (g g' : RelationGraph) (k : String) (mk : String → Relation)
    (nm : Option String) (h : mpushOpt g k mk nm = some g') :
    g'.map Prod.fst = g.map Prod.fst := by
  unfold mpushOpt at h
  split_ifs at h with hs
  · cases nm with
    | none => simp at h
    | some n0 =>
      simp only [Option.map_some'] at h
      cases h
      exact keys_mpush g k (mk n0)
  · cases h
    rfl

theorem mget_mpushOpt (g g' : RelationGraph) (k : String) (mk : String → Relation)
    (nm : Option String) (h : mpushOpt g k mk nm = some g') (n : String) :
    mget g' n =
      if n = k then (mget g k).map (fun l => l ++ [mk (nm.getD "")]) else mget g n := by
  unfold mpushOpt at h
  split_ifs at h with hs
  · cases nm with
    | none => simp at h
    | some n0 =>
      simp only [Option.map_some'] at h
      cases h
      simpa using mget_mpush g k (mk n0) n
  · cases h
    rw [Option.not_isSome_iff_eq_none] at hs
    by_cases hn : n = k
    · subst hn
      simp [hs]
    · simp [hn]

/-! ## Generic characterization of an `Option`-valued left fold of pushes -/

/-- If every step of a fold appends, per key, a step-specific contribution
to the stored list (in the `Option.map` form that also covers absent keys),
then the whole fold appends the concatenation of the contributions. -/
theorem foldlM_mget {α : Type} (step : RelationGraph → α → Option RelationGraph)
    (c : String → α → List Relation)
    (hstep : ∀ g a g', step g a = some g' →
      ∀ n, mget g' n = (mget g n).map (fun l => l ++ c n a)) :
    ∀ (l : List α) (g g' : RelationGraph), l.foldlM step g = some g' →
      ∀ n, mget g' n = (mget g n).map (fun l2 => l2 ++ l.flatMap (c n)) := by
  intro l
  induction l with
  | nil =>
    intro g g' h n
    simp only [List.foldlM_nil] at h
    cases h
    cases hm : mget g n <;> simp [hm]
  | cons a rest ih =>
    intro g g' h n
    simp only [List.foldlM_cons] at h
    rcases Option.bind_eq_some.mp h with ⟨g1, hg1, hrest⟩
    have h1 := hstep g a g1 hg1 n
    have h2 := ih g1 g' hrest n
    rw [h2, h1]
    cases hm : mget g n <;> simp [hm, List.append_assoc]

/-- If every step of a fold preserves the key list, so does the fold. -/
theorem foldlM_keys {α : Type} (step : RelationGraph → α → Option RelationGraph)
    (hstep : ∀ g a g', step g a = some g' → g'.map Prod.fst = g.map Prod.fst) :
    ∀ (l : List α) (g g' : RelationGraph), l.foldlM step g = some g' →
      g'.map Prod.fst = g.map Prod.fst := by
  intro l
  induction l with
  | nil =>
    intro g g' h
    simp only [List.foldlM_nil] at h
    cases h
    rfl
  | cons a rest ih =>
    intro g g' h
    simp only [List.foldlM_cons] at h
    rcases Option.bind_eq_some.mp h with ⟨g1, hg1, hrest⟩
    rw [ih g1 g' hrest, hstep g a g1 hg1]

/-! ## Declarative contributions of each pass -/

/-- Total companion of `toTableVariableName` (the `""` default is never
reached in a successful run, since a failing name computation makes the
whole build fail). -/
def ttvnD (s : String) : String :=
  (toTableVariableName s).getD ""

/-- The `OneRelation` pushed in pass 1 for field `f` of table `t`. -/
def oneRelFor (t : TableDef) (f : FieldDef) (ref : FieldReference) : Relation :=
  .one { name := deriveOneRelationName f.name
         fromTable := t.name
         fromField := f.name
         toTable := ref.tableName
         toField := ref.fieldName
         optional := f.nullable }

/-- The reverse `ManyRelation` pushed in pass 1 for holder table `t`. -/
def manyRelFor (t : TableDef) : Relation :=
  .many { name := ttvnD t.name, table := t.name }

/-- What a single field of table `t` appends to the list stored at key `n`
during pass 1 (in push order: the `one` side before the `many` side). -/
def fieldContrib (n : String) (t : TableDef) (f : FieldDef) : List Relation :=
  match f.references with
  | none => []
  | some ref =>
    (if t.name = n then [oneRelFor t f ref] else []) ++
    (if t.isJunction then []
     else if ref.tableName = n then [manyRelFor t] else [])

/-- Everything pass 1 appends to the list stored at key `n`, in iteration
order over tables and fields. -/
def pass1Contrib (n : String) (tables : List TableDef) : List Relation :=
  tables.flatMap (fun t => t.fields.flatMap (fieldContrib n t))

/-- The `ManyThroughRelation` pushed in pass 2 onto `rA.tableName`'s list
for junction `t` whose two reference fields are `fA → rA` and `fB → rB`. -/
def throughRelFor (t : TableDef) (fA fB : FieldDef) (rA rB : FieldReference) : Relation :=
  .manyThrough { name := ttvnD rB.tableName
                 fromTable := rA.tableName
                 fromField := rA.fieldName
                 toTable := rB.tableName
                 toField := rB.fieldName
                 junction := { table := t.name
                               fromField := fA.name
                               toField := fB.name } }

/-- What pass 2 appends to the list stored at key `n` for a junction whose
two reference edges are `fieldA → refA` and `fieldB → refB`. -/
def junctionPairContrib (n : String) (t : TableDef) (fieldA fieldB : FieldDef)
    (refA refB : FieldReference) : List Relation :=
  (if refA.tableName = n then [throughRelFor t fieldA fieldB refA refB] else []) ++
  (if refB.tableName = n then [throughRelFor t fieldB fieldA refB refA] else [])

/-- What junction table `t` appends to the list stored at key `n` during
pass 2 (side A pushed before side B). -/
def junctionContrib (n : String) (t : TableDef) : List Relation :=
  if t.isJunction then
    match t.fields.filter (fun f => f.references.isSome) with
    | [fieldA, fieldB] =>
      match fieldA.references, fieldB.references with
      | some refA, some refB => junctionPairContrib n t fieldA fieldB refA refB
      | _, _ => []
    | _ => []
  else []

/-- Everything pass 2 appends to the list stored at key `n`. -/
def pass2Contrib (n : String) (tables : List TableDef) : List Relation :=
  tables.flatMap (junctionContrib n)

/-! ## Per-step characterization lemmas -/

theorem pass1Field_mget (t : TableDef) (g : RelationGraph) (f : FieldDef)
    (g' : RelationGraph) (h : pass1Field t g f = some g') (n : String) :
    mget g' n = (mget g n).map (fun l => l ++ fieldContrib n t f) := by
  cases href : f.references with
  | none =>
    simp only [pass1Field, href] at h
    cases h
    cases hm : mget g n <;> simp [hm, fieldContrib, href]
  | some ref =>
    simp only [pass1Field, href] at h
    simp only [fieldContrib, href]
    by_cases hj : t.isJunction
    · rw [if_pos hj] at h
      cases h
      rw [mget_mpush]
      simp only [if_pos hj, List.append_nil]
      by_cases hn : t.name = n
      · rw [if_pos hn.symm, if_pos hn, hn]
        cases hm : mget g n <;> simp [hm, oneRelFor, hn]
      · rw [if_neg (fun hh : n = t.name => hn hh.symm), if_neg hn]
        cases hm : mget g n <;> simp [hm]
    · rw [if_neg hj] at h
      have hh := mget_mpushOpt _ _ _ _ _ h n
      rw [mget_mpush g t.name _ ref.tableName, mget_mpush g t.name _ n] at hh
      simp only [if_neg hj]
      by_cases hn1 : t.name = n <;> by_cases hn2 : ref.tableName = n
      · rw [hh, if_pos hn2.symm, if_pos (hn2.trans hn1.symm), if_pos hn1,
          if_pos hn2, hn1]
        cases hm : mget g n <;> simp [hm, oneRelFor, manyRelFor, ttvnD, hn1, hn2]
      · rw [hh, if_neg (fun h2 : n = ref.tableName => hn2 h2.symm), if_pos hn1.symm,
          if_pos hn1, if_neg hn2, hn1]
        cases hm : mget g n <;> simp [hm, oneRelFor, hn1]
      · rw [hh, if_pos hn2.symm, if_neg (fun h2 : ref.tableName = t.name =>
          hn1 (h2.symm.trans hn2)), if_neg hn1, if_pos hn2, hn2]
        cases hm : mget g n <;> simp [hm, manyRelFor, ttvnD, hn2]
      · rw [hh, if_neg (fun h2 : n = ref.tableName => hn2 h2.symm),
          if_neg (fun h2 : n = t.name => hn1 h2.symm), if_neg hn1, if_neg hn2]
        cases hm : mget g n <;> simp [hm]

theorem pass1Field_keys (t : TableDef) (g : RelationGraph) (f : FieldDef)
    (g' : RelationGraph) (h : pass1Field t g f = some g') :
    g'.map Prod.fst = g.map Prod.fst := by
  cases href : f.references with
  | none =>
    simp only [pass1Field, href] at h
    cases h
    rfl
  | some ref =>
    simp only [pass1Field, href] at h
    by_cases hj : t.isJunction
    · rw [if_pos hj] at h
      cases h
      exact keys_mpush g t.name _
    · rw [if_neg hj] at h
      rw [mpushOpt_keys _ _ _ _ _ h]
      exact keys_mpush g t.name _

theorem pass1Table_mget (g : RelationGraph) (t : TableDef) (g' : RelationGraph)
    (h : pass1Table g t = some g') (n : String) :
    mget g' n = (mget g n).map (fun l => l ++ t.fields.flatMap (fieldContrib n t)) := by
  exact foldlM_mget (pass1Field t) (fun n f => fieldContrib n t f)
    (fun g f g' hh n => pass1Field_mget t g f g' hh n) t.fields g g' h n

theorem pass1Table_keys (g : RelationGraph) (t : TableDef) (g' : RelationGraph)
    (h : pass1Table g t = some g') : g'.map Prod.fst = g.map Prod.fst := by
  exact foldlM_keys (pass1Field t)
    (fun g f g' hh => pass1Field_keys t g f g' hh) t.fields g g' h

theorem pass2Table_mget (g : RelationGraph) (t : TableDef) (g' : RelationGraph)
    (h : pass2Table g t = some g') (n : String) :
    mget g' n = (mget g n).map (fun l => l ++ junctionContrib n t) := by
  unfold pass2Table at h
  unfold junctionContrib
  by_cases hj : t.isJunction
  · rw [if_pos hj] at h
    rw [if_pos hj]
    revert h
    cases hfl : t.fields.filter (fun f => f.references.isSome) with
    | nil =>
      intro h
      cases h
      show mget g n = (mget g n).map (fun l => l ++ ([] : List Relation))
      cases hm : mget g n <;> simp [hm]
    | cons fA rest =>
      cases rest with
      | nil =>
        intro h
        cases h
        show mget g n = (mget g n).map (fun l => l ++ ([] : List Relation))
        cases hm : mget g n <;> simp [hm]
      | cons fB rest2 =>
        cases rest2 with
        | cons x rest3 =>
          intro h
          cases h
          show mget g n = (mget g n).map (fun l => l ++ ([] : List Relation))
          cases hm : mget g n <;> simp [hm]
        | nil =>
          intro h
          replace h : (match fA.references, fB.references with
              | some refA, some refB => pass2Push g t fA fB refA refB
              | _, _ => some g) = some g' := h
          show mget g' n = (mget g n).map (fun l =>
            l ++ (match fA.references, fB.references with
              | some refA, some refB => junctionPairContrib n t fA fB refA refB
              | _, _ => []))
          revert h
          cases hra : fA.references with
          | none =>
            intro h
            cases h
            show mget g n = (mget g n).map (fun l => l ++ ([] : List Relation))
            cases hm : mget g n <;> simp [hm]
          | some refA =>
            cases hrb : fB.references with
            | none =>
              intro h
              cases h
              show mget g n = (mget g n).map (fun l => l ++ ([] : List Relation))
              cases hm : mget g n <;> simp [hm]
            | some refB =>
              intro h
              replace h : pass2Push g t fA fB refA refB = some g' := h
              show mget g' n =
                (mget g n).map (fun l => l ++ junctionPairContrib n t fA fB refA refB)
              unfold pass2Push at h
              rcases Option.bind_eq_some.mp h with ⟨g1, h1, h2⟩
              have hh2 := mget_mpushOpt _ _ _ _ _ h2 n
              have hhA1 := mget_mpushOpt _ _ _ _ _ h1 refB.tableName
              have hhAn := mget_mpushOpt _ _ _ _ _ h1 n
              rw [hhA1, hhAn] at hh2
              unfold junctionPairContrib
              by_cases hnA : refA.tableName = n <;> by_cases hnB : refB.tableName = n
              · rw [hh2, if_pos hnB.symm, if_pos (hnB.trans hnA.symm), if_pos hnA,
                  if_pos hnB, hnA]
                cases hm : mget g n <;> simp [hm, throughRelFor, ttvnD, hnA, hnB]
              · rw [hh2, if_neg (fun h2 : n = refB.tableName => hnB h2.symm),
                  if_pos hnA.symm, if_pos hnA, if_neg hnB, hnA]
                cases hm : mget g n <;> simp [hm, throughRelFor, ttvnD, hnA]
              · rw [hh2, if_pos hnB.symm,
                  if_neg (fun h2 : refB.tableName = refA.tableName =>
                    hnA (h2.symm.trans hnB)),
                  if_neg hnA, if_pos hnB, hnB]
                cases hm : mget g n <;> simp [hm, throughRelFor, ttvnD, hnB]
              · rw [hh2, if_neg (fun h2 : n = refB.tableName => hnB h2.symm),
                  if_neg (fun h2 : n = refA.tableName => hnA h2.symm),
                  if_neg hnA, if_neg hnB]
                cases hm : mget g n <;> simp [hm]
  · rw [if_neg hj] at h
    cases h
    rw [if_neg hj]
    cases hm : mget g n <;> simp [hm]

theorem pass2Table_keys (g : RelationGraph) (t : TableDef) (g' : RelationGraph)
    (h : pass2Table g t = some g') : g'.map Prod.fst = g.map Prod.fst := by
  unfold pass2Table at h
  by_cases hj : t.isJunction
  · rw [if_pos hj] at h
    revert h
    cases hfl : t.fields.filter (fun f => f.references.isSome) with
    | nil =>
      intro h
      cases h
      rfl
    | cons fA rest =>
      cases rest with
      | nil =>
        intro h
        cases h
        rfl
      | cons fB rest2 =>
        cases rest2 with
        | cons x rest3 =>
          intro h
          cases h
          rfl
        | nil =>
          intro h
          replace h : (match fA.references, fB.references with
              | some refA, some refB => pass2Push g t fA fB refA refB
              | _, _ => some g) = some g' := h
          revert h
          cases hra : fA.references with
          | none =>
            intro h
            cases h
            rfl
          | some refA =>
            cases hrb : fB.references with
            | none =>
              intro h
              cases h
              rfl
            | some refB =>
              intro h
              replace h : pass2Push g t fA fB refA refB = some g' := h
              unfold pass2Push at h
              rcases Option.bind_eq_some.mp h with ⟨g1, h1, h2⟩
              rw [mpushOpt_keys _ _ _ _ _ h2, mpushOpt_keys _ _ _ _ _ h1]
  · rw [if_neg hj] at h
    cases h
    rfl

/-! ## Characterization of `buildRelationGraph` -/

theorem mget_initGraph_aux (tables : List TableDef) :
    ∀ (g : RelationGraph) (n : String),
      mget (tables.foldl (fun g t => mset g t.name []) g) n =
        if n ∈ tables.map (fun t => t.name) then some [] else mget g n := by
  induction tables with
  | nil => intro g n; simp
  | cons t rest ih =>
    intro g n
    simp only [List.foldl_cons]
    rw [ih (mset g t.name []) n, mget_mset]
    by_cases h1 : n ∈ rest.map (fun t => t.name) <;> by_cases h2 : n = t.name <;>
      simp [h1, h2]

theorem mget_initGraph (tables : List TableDef) (n : String) :
    mget (initGraph tables) n =
      if n ∈ tables.map (fun t => t.name) then some [] else none := by
  unfold initGraph
  rw [mget_initGraph_aux tables [] n]
  rfl

theorem keys_initGraph_nodup_aux (tables : List TableDef) :
    ∀ g : RelationGraph, (g.map Prod.fst).Nodup →
      (((tables.foldl (fun g t => mset g t.name []) g)).map Prod.fst).Nodup := by
  induction tables with
  | nil => intro g hg; simpa using hg
  | cons t rest ih =>
    intro g hg
    simp only [List.foldl_cons]
    apply ih
    rw [keys_mset]
    by_cases hs : (mget g t.name).isSome
    · rw [if_pos hs]
      exact hg
    · rw [if_neg hs]
      refine List.Nodup.append hg (List.nodup_singleton _) ?_
      intro a ha hb
      rw [List.mem_singleton] at hb
      subst hb
      exact hs ((mget_isSome_iff g t.name).mpr ha)

theorem keys_initGraph_nodup (tables : List TableDef) :
    ((initGraph tables).map Prod.fst).Nodup := by
  exact keys_initGraph_nodup_aux tables [] (by simp)

theorem buildRelationGraph_mget (tables : List TableDef) (g : RelationGraph)
    (h : buildRelationGraph tables = some g) (n : String) :
    mget g n =
      if n ∈ tables.map (fun t => t.name) then
        some (pass1Contrib n tables ++ pass2Contrib n tables)
      else none := by
  unfold buildRelationGraph at h
  rcases Option.bind_eq_some.mp h with ⟨g1, h1, h2⟩
  have c1 := foldlM_mget pass1Table (fun n t => t.fields.flatMap (fieldContrib n t))
    (fun g t g' hh n => pass1Table_mget g t g' hh n) tables _ g1 h1 n
  have c2 := foldlM_mget pass2Table (fun n t => junctionContrib n t)
    (fun g t g' hh n => pass2Table_mget g t g' hh n) tables g1 g h2 n
  rw [c2, c1, mget_initGraph]
  by_cases hmem : n ∈ tables.map (fun t => t.name) <;>
    simp [hmem, pass1Contrib, pass2Contrib]

theorem buildRelationGraph_keys (tables : List TableDef) (g : RelationGraph)
    (h : buildRelationGraph tables = some g) :
    g.map Prod.fst = (initGraph tables).map Prod.fst := by
  unfold buildRelationGraph at h
  rcases Option.bind_eq_some.mp h with ⟨g1, h1, h2⟩
  rw [foldlM_keys pass2Table (fun g t g' hh => pass2Table_keys g t g' hh) tables g1 g h2,
    foldlM_keys pass1Table (fun g t g' hh => pass1Table_keys g t g' hh) tables _ g1 h1]

theorem buildRelationGraph_keys_nodup (tables : List TableDef) (g : RelationGraph)
    (h : buildRelationGraph tables = some g) : (g.map Prod.fst).Nodup := by
  rw [buildRelationGraph_keys tables g h]
  exact keys_initGraph_nodup tables

theorem buildRelationGraph_mem_keys (tables : List TableDef) (g : RelationGraph)
    (h : buildRelationGraph tables = some g) (k : String) :
    k ∈ g.map Prod.fst ↔ k ∈ tables.map (fun t => t.name) := by
  rw [← mget_isSome_iff, buildRelationGraph_mget tables g h k]
  by_cases hmem : k ∈ tables.map (fun t => t.name) <;> simp [hmem]

/-! ## TypeSpec program model (inputs to `buildIR`, `src/ir/builder.ts`) -/

/-- A TypeSpec scalar: a name, optionally derived from a base scalar
(`scalar.baseScalar`), represented with two constructors. -/
inductive TSScalar where
  | root (name : String)
  | derived (name : String) (base : TSScalar)
deriving DecidableEq

/-- A TypeSpec enum member: `name` plus optional `value`. The member value
is stored as the string `String(m.value)` JS would produce. -/
structure TSEnumMember where
  name : String
  value : Option String
deriving DecidableEq

/-- The type of a model property as inspected by `resolveFieldType`:
a scalar, an enum (name + members in insertion order), or anything else. -/
inductive TSType where
  | scalar (s : TSScalar)
  | enum (name : String) (members : List TSEnumMember)
  | other
deriving DecidableEq

/-- A TypeSpec `ModelProperty`. Object identity (the key used by the
decorator state maps) is modelled by `id`; `model` is the id of the owning
model (`refTarget.model`), if any; `default` is the declared default
(`none` when absent or `undefined`). -/
structure ModelProperty where
  id : Nat
  name : String
  optional : Bool
  type : TSType
  model : Option Nat := none
  default : Option JSValue := none
deriving DecidableEq

/-- A TypeSpec `Model`: identity, `kind` tag and the insertion-ordered
`properties` map (name → property). -/
structure Model where
  id : Nat
  kind : String
  properties : List (String × ModelProperty)
deriving DecidableEq

/-- `@table` state payload. -/
structure TableMeta where
  name : String
  service : String
deriving DecidableEq

/-- `@primaryKey` state payload. -/
structure PrimaryKeyMeta where
  tableName : String
deriving DecidableEq

/-- `@uuid` state payload. -/
structure UuidMeta where
  encoding : String
  autoGenerate : Bool
deriving DecidableEq

/-- `@compositeUnique` state payload. -/
structure CompositeUniqueMeta where
  name : String
  columns : List ModelProperty
deriving DecidableEq

/-- `@indexDef` state payload. -/
structure IndexMeta where
  name : String
  columns : List ModelProperty
  unique : Bool
deriving DecidableEq

/-- `@foreignKeyDef` state payload. -/
structure ForeignKeyMeta where
  name : String
  columns : List ModelProperty
  foreignColumns : List ModelProperty
deriving DecidableEq

/-- The decorator state read by `buildIR` (`ProgramStateAccess`): one
accessor per state key. State maps keyed on object identity become
functions from ids; the `@table` state map's iteration order is the list
order of `tableState`. -/
structure Store where
  tableState : List (Model × TableMeta)
  pkTableState : Nat → Option PrimaryKeyMeta
  pkFieldState : Nat → Bool
  referencesState : Nat → Option ModelProperty
  junctionState : Nat → Bool
  uuidState : Nat → Option UuidMeta
  createdAtState : Nat → Bool
  updatedAtState : Nat → Bool
  uniqueState : Nat → Bool
  compositeUniqueState : Nat → Option (List CompositeUniqueMeta)
  checkState : Nat → Option String
  indexDefState : Nat → Option (List IndexMeta)
  foreignKeyDefState : Nat → Option (List ForeignKeyMeta)
  minValueState : Nat → Option Int
  maxValueState : Nat → Option Int
  visibilityState : Nat → Option String

/-- `tableState.get(model)`: look the model up by identity. -/
def tableStateGet (store : Store) (mid : Nat) : Option TableMeta :=
  (store.tableState.find? (fun e => e.1.id == mid)).map (fun e => e.2)

/-! ## `buildIR` (`src/ir/builder.ts`) -/

/-- The scalar-name switch of `resolveScalarType`. -/
def scalarCaseLookup (name : String) : Option FieldType :=
  if name = "string" then some .text
  else if name = "int32" then some .integer
  else if name = "int64" then some .bigint
  else if name = "float32" then some .real
  else if name = "float64" then some .doublePrecision
  else if name = "boolean" then some .boolean
  else if name = "utcDateTime" then some .timestamp
  else none

/-- `resolveScalarType`: switch on the scalar name, recurse through
`baseScalar`, fall back to `text`. -/
def resolveScalarType : TSScalar → FieldType
  | .root name => (scalarCaseLookup name).getD .text
  | .derived name base =>
    match scalarCaseLookup name with
    | some ft => ft
    | none => resolveScalarType base

/-- JS `s.charAt(0).toLowerCase() + s.slice(1)`; `charAt` on the empty
string yields `""`, so this never throws. -/
def lowerFirst (s : String) : String :=
  match s.data with
  | [] => ""
  | c :: cs => ⟨c.toLower :: cs⟩

/-- JS `s.replace(/Enum$/, "")`: remove one trailing `"Enum"` if present. -/
def replaceEnumSuffix (s : String) : String :=
  if strEndsWith s "Enum" then strDropLast s 4 else s

/-- `resolveFieldType` from `builder.ts`: a uuid spec takes precedence;
scalars go through `resolveScalarType`; enums become
`enum{lowerFirst(name) + "Enum", values}`; anything else is `text`. -/
def resolveFieldType (prop : ModelProperty) (uuidMeta : Option UuidMeta) : FieldType :=
  match uuidMeta with
  | some u => .uuid u.encoding
  | none =>
    match prop.type with
    | .scalar s => resolveScalarType s
    | .enum nm members =>
      .enum (lowerFirst nm ++ "Enum")
        (members.map (fun m =>
          match m.value with
          | some v => v
          | none => m.name))
    | .other => .text

/-- `extractDefaultValue` from `builder.ts`: unwrap literal wrappers and
enum members, pass primitives through, yield `none` otherwise. -/
def extractDefaultValue (value : JSValue) : Option JSValue :=
  match value with
  | .nullv => none
  | .withValue v => some v
  | .enumMemberV v _ => some v
  | .enumMemberN nm => nm.map JSValue.str
  | .str s => some (.str s)
  | .num n => some (.num n)
  | .boolv b => some (.boolv b)
  | .otherObj => none

/-- Resolve a property's `@references` target: look up the target
property, its owning model and that model's `@table` metadata; a failed
step silently drops the reference. -/
def resolveReference (store : Store) (prop : ModelProperty) : Option FieldReference :=
  match store.referencesState prop.id with
  | none => none
  | some refTarget =>
    match refTarget.model with
    | none => none
    | some mid =>
      match tableStateGet store mid with
      | none => none
      | some meta => some { tableName := meta.name, fieldName := refTarget.name }

/-- JS truthiness of an optional string (absent and `""` are falsy). -/
def truthyStr : Option String → Bool
  | some s => !(s == "")
  | none => false

/-- The `FieldDef` built for one property in `buildIR`'s field loop. -/
def buildField (store : Store) (propName : String) (prop : ModelProperty) : FieldDef :=
  let uuidMeta := store.uuidState prop.id
  let isUnique := store.uniqueState prop.id
  let checkExpr := store.checkState prop.id
  let minVal := store.minValueState prop.id
  let maxVal := store.maxValueState prop.id
  let vis := store.visibilityState prop.id
  { name := propName
    columnName := toSnakeCase propName
    type := resolveFieldType prop uuidMeta
    nullable := prop.optional
    createdAt := store.createdAtState prop.id
    updatedAt := store.updatedAtState prop.id
    uuid := uuidMeta.map (fun u => { encoding := u.encoding, autoGenerate := u.autoGenerate })
    references := resolveReference store prop
    constraints :=
      if isUnique || truthyStr checkExpr || minVal.isSome || maxVal.isSome then
        some { unique := if isUnique then some true else none
               check := if truthyStr checkExpr then checkExpr else none
               minValue := minVal
               maxValue := maxVal }
      else none
    visibility := if truthyStr vis then vis else none
    defaultValue := prop.default.bind extractDefaultValue }

/-- Accumulator for enum deduplication (`seenEnums` + `enums`). -/
structure EnumAcc where
  seen : List String
  enums : List EnumDef
deriving DecidableEq

/-- The enum-collection step run on each property's resolved field type:
register unseen enum names, keeping the first-encountered value list. -/
def collectEnum (acc : EnumAcc) (ft : FieldType) : EnumAcc :=
  match ft with
  | .enum nm values =>
    if nm ∈ acc.seen then acc
    else { seen := acc.seen ++ [nm]
           enums := acc.enums ++
             [{ name := nm
                sqlName := toSnakeCase (replaceEnumSuffix nm)
                values := values }] }
  | _ => acc

/-- State threaded through `buildIR`'s property loop. -/
structure PropLoopState where
  fields : List FieldDef
  pkColumns : List String
  acc : EnumAcc
deriving DecidableEq

/-- One iteration of `buildIR`'s property loop. -/
def propStep (store : Store) (st : PropLoopState) (entry : String × ModelProperty) :
    PropLoopState :=
  let (propName, prop) := entry
  { fields := st.fields ++ [buildField store propName prop]
    pkColumns :=
      if store.pkFieldState prop.id then st.pkColumns ++ [propName] else st.pkColumns
    acc := collectEnum st.acc (resolveFieldType prop (store.uuidState prop.id)) }

/-- State threaded through `buildIR`'s model loop. -/
structure IRState where
  tables : List TableDef
  acc : EnumAcc
deriving DecidableEq

/-- One iteration of `buildIR`'s model loop: models without `Model` kind or
without `@primaryKey` metadata are skipped. -/
def tableStep (store : Store) (st : IRState) (entry : Model × TableMeta) : IRState :=
  let (model, tableMeta) := entry
  if model.kind ≠ "Model" then st
  else
    match store.pkTableState model.id with
    | none => st
    | some pkMeta =>
      let ps := model.properties.foldl (propStep store)
        { fields := [], pkColumns := [], acc := st.acc }
      { tables := st.tables ++
          [{ name := tableMeta.name
             service := tableMeta.service
             tableName := pkMeta.tableName
             primaryKey :=
               { tableName := pkMeta.tableName
                 columns := ps.pkColumns
                 isComposite := decide (ps.pkColumns.length > 1) }
             fields := ps.fields
             foreignKeys := ((store.foreignKeyDefState model.id).getD []).map
               (fun fk =>
                 { name := fk.name
                   columns := fk.columns.map (fun c => c.name)
                   foreignTable :=
                     (((fk.foreignColumns.head?.bind (fun c => c.model)).bind
                       (tableStateGet store)).map (fun m => m.name)).getD ""
                   foreignColumns := fk.foreignColumns.map (fun c => c.name) })
             isJunction := store.junctionState model.id
             indexes := ((store.indexDefState model.id).getD []).map
               (fun idx =>
                 { name := idx.name
                   columns := idx.columns.map (fun c => c.name)
                   unique := idx.unique })
             uniqueConstraints := ((store.compositeUniqueState model.id).getD []).map
               (fun cu =>
                 { name := cu.name
                   columns := cu.columns.map (fun c => c.name) })}]
        acc := ps.acc }

/-- Result shape of `buildIR`: `{ tables, enums }`. -/
structure IRResult where
  tables : List TableDef
  enums : List EnumDef
deriving DecidableEq

/-- `buildIR` from `src/ir/builder.ts`. -/
def buildIR (store : Store) : IRResult :=
  let st := store.tableState.foldl (tableStep store)
    { tables := [], acc := { seen := [], enums := [] } }
  { tables := st.tables, enums := st.acc.enums }

/-- A store with no decorator state at all (fixture base). -/
def emptyStore : Store :=
  { tableState := []
    pkTableState := fun _ => none
    pkFieldState := fun _ => false
    referencesState := fun _ => none
    junctionState := fun _ => false
    uuidState := fun _ => none
    createdAtState := fun _ => false
    updatedAtState := fun _ => false
    uniqueState := fun _ => false
    compositeUniqueState := fun _ => none
    checkState := fun _ => none
    indexDefState := fun _ => none
    foreignKeyDefState := fun _ => none
    minValueState := fun _ => none
    maxValueState := fun _ => none
    visibilityState := fun _ => none }

/-- Fixture: one model `T` whose only property `id` is an optional
(`id?:`) primary-key member. -/
def storeOptionalPk : Store :=
  { emptyStore with
    tableState :=
      [({ id := 0
          kind := "Model"
          properties :=
            [("id", { id := 1, name := "id", optional := true
                      type := .scalar (.root "string") })] },
        { name := "T", service := "svc" })]
    pkTableState := fun mid => if mid = 0 then some { tableName := "ts" } else none
    pkFieldState := fun pid => pid == 1 }

/-! ## Characterization of `buildIR` -/

theorem propFold_fields (store : Store) :
    ∀ (props : List (String × ModelProperty)) (st : PropLoopState),
      (props.foldl (propStep store) st).fields =
        st.fields ++ props.map (fun e => buildField store e.1 e.2) := by
  intro props
  induction props with
  | nil => intro st; simp
  | cons e rest ih =>
    intro st
    obtain ⟨a, b⟩ := e
    rw [List.foldl_cons, ih]
    simp [propStep]

theorem propFold_pkColumns (store : Store) :
    ∀ (props : List (String × ModelProperty)) (st : PropLoopState),
      (props.foldl (propStep store) st).pkColumns =
        st.pkColumns ++
          (props.filter (fun e => store.pkFieldState e.2.id)).map (fun e => e.1) := by
  intro props
  induction props with
  | nil => intro st; simp
  | cons e rest ih =>
    intro st
    obtain ⟨a, b⟩ := e
    rw [List.foldl_cons, ih]
    cases hpk : store.pkFieldState b.id <;>
      simp [propStep, hpk, List.filter_cons]

theorem propFold_acc (store : Store) :
    ∀ (props : List (String × ModelProperty)) (st : PropLoopState),
      (props.foldl (propStep store) st).acc =
        props.foldl
          (fun acc e => collectEnum acc (resolveFieldType e.2 (store.uuidState e.2.id)))
          st.acc := by
  intro props
  induction props with
  | nil => intro st; simp
  | cons e rest ih =>
    intro st
    obtain ⟨a, b⟩ := e
    rw [List.foldl_cons, ih, List.foldl_cons]
    rfl

/-- The `TableDef` produced from one `@table` entry, with field list and
primary-key columns written out pointwise (the enum accumulator influences
neither); `none` when `buildIR` skips the entry. -/
def tableOf (store : Store) (entry : Model × TableMeta) : Option TableDef :=
  if entry.1.kind ≠ "Model" then none
  else
    match store.pkTableState entry.1.id with
    | none => none
    | some pkMeta =>
      let pkColumns :=
        (entry.1.properties.filter (fun e => store.pkFieldState e.2.id)).map
          (fun e => e.1)
      some
        { name := entry.2.name
          service := entry.2.service
          tableName := pkMeta.tableName
          primaryKey :=
            { tableName := pkMeta.tableName
              columns := pkColumns
              isComposite := decide (pkColumns.length > 1) }
          fields := entry.1.properties.map (fun e => buildField store e.1 e.2)
          foreignKeys := ((store.foreignKeyDefState entry.1.id).getD []).map
            (fun fk =>
              { name := fk.name
                columns := fk.columns.map (fun c => c.name)
                foreignTable :=
                  (((fk.foreignColumns.head?.bind (fun c => c.model)).bind
                    (tableStateGet store)).map (fun m => m.name)).getD ""
                foreignColumns := fk.foreignColumns.map (fun c => c.name) })
          isJunction := store.junctionState entry.1.id
          indexes := ((store.indexDefState entry.1.id).getD []).map
            (fun idx =>
              { name := idx.name
                columns := idx.columns.map (fun c => c.name)
                unique := idx.unique })
          uniqueConstraints := ((store.compositeUniqueState entry.1.id).getD []).map
            (fun cu =>
              { name := cu.name
                columns := cu.columns.map (fun c => c.name) }) }

theorem tableFold_tables (store : Store) :
    ∀ (entries : List (Model × TableMeta)) (st : IRState),
      (entries.foldl (tableStep store) st).tables =
        st.tables ++ entries.filterMap (tableOf store) := by
  intro entries
  induction entries with
  | nil => intro st; simp
  | cons entry rest ih =>
    intro st
    obtain ⟨model, meta⟩ := entry
    rw [List.foldl_cons, ih, List.filterMap_cons]
    by_cases hk : model.kind ≠ "Model"
    · simp [tableStep, tableOf, hk]
    · cases hpk : store.pkTableState model.id with
      | none => simp [tableStep, tableOf, hk, hpk]
      | some pkMeta =>
        simp [tableStep, tableOf, hk, hpk, propFold_fields, propFold_pkColumns]

theorem buildIR_tables (store : Store) :
    (buildIR store).tables = store.tableState.filterMap (tableOf store) := by
  show (store.tableState.foldl (tableStep store)
    { tables := [], acc := { seen := [], enums := [] } }).tables = _
  rw [tableFold_tables store store.tableState]
  rfl

/-- One registration step on the enum accumulator. -/
def accStep (acc : EnumAcc) (e : EnumDef) : EnumAcc :=
  if e.name ∈ acc.seen then acc
  else { seen := acc.seen ++ [e.name], enums := acc.enums ++ [e] }

/-- The enum definitions contributed by one resolved field type. -/
def enumEncounterOf (ft : FieldType) : List EnumDef :=
  match ft with
  | .enum nm values =>
    [{ name := nm, sqlName := toSnakeCase (replaceEnumSuffix nm), values := values }]
  | _ => []

/-- The enum definitions contributed by one model property. -/
def enumEncounter (store : Store) (prop : ModelProperty) : List EnumDef :=
  enumEncounterOf (resolveFieldType prop (store.uuidState prop.id))

/-- All enum encounters of one `buildIR` run: iteration order over the
:`@table` state entries and each processed model's properties. -/
def enumEncounters (store : Store) : List EnumDef :=
  store.tableState.flatMap (fun entry =>
    if entry.1.kind ≠ "Model" then []
    else
      match store.pkTableState entry.1.id with
      | none => []
      | some _ => entry.1.properties.flatMap (fun e => enumEncounter store e.2))

/-- First-occurrence deduplication by `name` given an initial seen set. -/
def dedupFirstBy : List String → List EnumDef → List EnumDef
  | _, [] => []
  | seen, e :: rest =>
    if e.name ∈ seen then dedupFirstBy seen rest
    else e :: dedupFirstBy (seen ++ [e.name]) rest

theorem collectEnum_eq (acc : EnumAcc) (ft : FieldType) :
    collectEnum acc ft = (enumEncounterOf ft).foldl accStep acc := by
  cases ft <;> rfl

theorem accFold (l : List EnumDef) :
    ∀ acc : EnumAcc,
      (l.foldl accStep acc).enums = acc.enums ++ dedupFirstBy acc.seen l ∧
      (l.foldl accStep acc).seen =
        acc.seen ++ (dedupFirstBy acc.seen l).map (fun e => e.name) := by
  induction l with
  | nil => intro acc; simp [dedupFirstBy]
  | cons e rest ih =>
    intro acc
    rw [List.foldl_cons]
    by_cases he : e.name ∈ acc.seen
    · have hstep : accStep acc e = acc := by simp [accStep, he]
      rw [hstep]
      obtain ⟨ih1, ih2⟩ := ih acc
      constructor
      · rw [ih1]
        simp [dedupFirstBy, he]
      · rw [ih2]
        simp [dedupFirstBy, he]
    · have hstep : accStep acc e =
          { seen := acc.seen ++ [e.name], enums := acc.enums ++ [e] } := by
        simp [accStep, he]
      rw [hstep]
      obtain ⟨ih1, ih2⟩ :=
        ih { seen := acc.seen ++ [e.name], enums := acc.enums ++ [e] }
      constructor
      · rw [ih1]
        simp [dedupFirstBy, he]
      · rw [ih2]
        simp [dedupFirstBy, he]

theorem propsEnumFold (store : Store) :
    ∀ (props : List (String × ModelProperty)) (acc : EnumAcc),
      props.foldl
        (fun acc e => collectEnum acc (resolveFieldType e.2 (store.uuidState e.2.id)))
        acc =
      (props.flatMap (fun e => enumEncounter store e.2)).foldl accStep acc := by
  intro props
  induction props with
  | nil => intro acc; simp
  | cons e rest ih =>
    intro acc
    rw [List.foldl_cons, ih, List.flatMap_cons, List.foldl_append, collectEnum_eq]
    rfl

theorem tableFold_acc (store : Store) :
    ∀ (entries : List (Model × TableMeta)) (st : IRState),
      (entries.foldl (tableStep store) st).acc =
        (entries.flatMap (fun entry =>
          if entry.1.kind ≠ "Model" then []
          else
            match store.pkTableState entry.1.id with
            | none => []
            | some _ =>
              entry.1.properties.flatMap (fun e => enumEncounter store e.2))).foldl
          accStep st.acc := by
  intro entries
  induction entries with
  | nil => intro st; simp
  | cons entry rest ih =>
    intro st
    obtain ⟨model, meta⟩ := entry
    rw [List.foldl_cons, ih, List.flatMap_cons, List.foldl_append]
    by_cases hk : model.kind ≠ "Model"
    · have h1 : tableStep store st (model, meta) = st := by
        simp [tableStep, hk]
      rw [h1]
      simp [hk]
    · cases hpk : store.pkTableState model.id with
      | none =>
        have h1 : tableStep store st (model, meta) = st := by
          simp [tableStep, hk, hpk]
        rw [h1]
        simp [hk, hpk]
      | some pkMeta =>
        have h1 : (tableStep store st (model, meta)).acc =
            (model.properties.flatMap (fun e => enumEncounter store e.2)).foldl
              accStep st.acc := by
          have h2 : (tableStep store st (model, meta)).acc =
              (model.properties.foldl (propStep store)
                { fields := [], pkColumns := [], acc := st.acc }).acc := by
            simp [tableStep, hk, hpk]
          rw [h2, propFold_acc, propsEnumFold]
        rw [h1]
        simp [hk, hpk]

theorem buildIR_enums (store : Store) :
    (buildIR store).enums = dedupFirstBy [] (enumEncounters store) := by
  show (store.tableState.foldl (tableStep store)
    { tables := [], acc := { seen := [], enums := [] } }).acc.enums = _
  rw [tableFold_acc store store.tableState]
  have h := (accFold (enumEncounters store) { seen := [], enums := [] }).1
  exact h.trans (by simp)

theorem dedupFirstBy_filter (n : String) :
    ∀ (l : List EnumDef) (seen : List String),
      (dedupFirstBy seen l).filter (fun e => decide (e.name = n)) =
        if n ∈ seen then [] else (l.filter (fun e => decide (e.name = n))).take 1 := by
  intro l
  induction l with
  | nil => intro seen; by_cases hn : n ∈ seen <;> simp [dedupFirstBy, hn]
  | cons e rest ih =>
    intro seen
    by_cases he : e.name ∈ seen
    · rw [dedupFirstBy, if_pos he, ih]
      by_cases hn : n ∈ seen
      · simp [hn]
      · have hne : ¬ e.name = n := fun hh => hn (hh ▸ he)
        simp [hn, List.filter_cons, hne]
    · rw [dedupFirstBy, if_neg he]
      by_cases hp : e.name = n
      · have hn2 : n ∈ seen ++ [e.name] := by simp [← hp]
        have hnseen : ¬ n ∈ seen := by
          rw [← hp]
          exact he
        simp [List.filter_cons, hp, ih, hn2, hnseen]
      · have hne : ¬ n = e.name := fun hh => hp hh.symm
        have hmem : (n ∈ seen ++ [e.name]) ↔ n ∈ seen := by
          simp [hne]
        by_cases hn : n ∈ seen <;>
          simp [List.filter_cons, hp, ih, hmem, hn]

theorem dedupFirstBy_subset :
    ∀ (l : List EnumDef) (seen : List String) (e : EnumDef),
      e ∈ dedupFirstBy seen l → e ∈ l := by
  intro l
  induction l with
  | nil => intro seen e h; simp [dedupFirstBy] at h
  | cons e2 rest ih =>
    intro seen e h
    rw [dedupFirstBy] at h
    by_cases he : e2.name ∈ seen
    · rw [if_pos he] at h
      exact List.mem_cons_of_mem e2 (ih seen e h)
    · rw [if_neg he] at h
      rcases List.mem_cons.mp h with h1 | h1
      · exact h1 ▸ List.mem_cons_self e2 rest
      · exact List.mem_cons_of_mem e2 (ih (seen ++ [e2.name]) e h1)

/-! ## String-level lemmas -/

theorem strEndsWith_append (s t : String) : strEndsWith (s ++ t) t = true := by
  unfold strEndsWith
  rw [List.isSuffixOf_iff_suffix]
  show t.data <:+ s.data ++ t.data
  exact List.suffix_append s.data t.data

theorem strDropLast_append (s t : String) :
    strDropLast (s ++ t) t.data.length = s := by
  unfold strDropLast
  show String.mk ((s.data ++ t.data).take ((s.data ++ t.data).length - t.data.length)) = s
  have h : (s.data ++ t.data).length - t.data.length = s.data.length := by
    simp
  rw [h, List.take_left]

theorem deriveOneRelationName_strip (t : String) :
    deriveOneRelationName (t ++ "Id") = t := by
  unfold deriveOneRelationName
  rw [if_pos (strEndsWith_append t "Id")]
  exact strDropLast_append t "Id"

theorem deriveOneRelationName_keep (s : String) (h : strEndsWith s "Id" = false) :
    deriveOneRelationName s = s := by
  unfold deriveOneRelationName
  rw [if_neg]
  simp [h]

theorem replaceEnumSuffix_of_endsWith (s : String)
    (h : strEndsWith s "Enum" = true) :
    replaceEnumSuffix s = strDropLast s 4 := by
  unfold replaceEnumSuffix
  rw [if_pos h]

theorem scalarCaseLookup_ne_enum (name : String) (ft : FieldType)
    (h : scalarCaseLookup name = some ft) (nm : String) (values : List String) :
    ft ≠ .enum nm values := by
  unfold scalarCaseLookup at h
  split_ifs at h <;> cases h <;> simp

theorem resolveScalarType_ne_enum :
    ∀ (s : TSScalar) (nm : String) (values : List String),
      resolveScalarType s ≠ .enum nm values := by
  intro s
  induction s with
  | root name =>
    intro nm values
    unfold resolveScalarType
    cases h : scalarCaseLookup name with
    | none => simp
    | some ft => simpa using scalarCaseLookup_ne_enum name ft h nm values
  | derived name base ih =>
    intro nm values
    unfold resolveScalarType
    cases h : scalarCaseLookup name with
    | none => simpa using ih nm values
    | some ft => simpa using scalarCaseLookup_ne_enum name ft h nm values

theorem resolveFieldType_enum_endsWith (prop : ModelProperty) (u : Option UuidMeta)
    (nm : String) (values : List String)
    (h : resolveFieldType prop u = .enum nm values) :
    strEndsWith nm "Enum" = true := by
  unfold resolveFieldType at h
  revert h
  cases u with
  | some u0 =>
    intro h
    simp at h
  | none =>
    cases hT : prop.type with
    | scalar s0 =>
      intro h
      exact absurd h (resolveScalarType_ne_enum s0 nm values)
    | enum tn members =>
      intro h
      have h1 : lowerFirst tn ++ "Enum" = nm := by
        have := congrArg (fun ft => match ft with
          | FieldType.enum x _ => x
          | _ => "") h
        simpa using this
      rw [← h1]
      exact strEndsWith_append (lowerFirst tn) "Enum"
    | other =>
      intro h
      simp at h

/-! ## Relation classification helpers -/

/-- Is this a `ManyThroughRelation`? -/
def isThrough : Relation → Bool
  | .manyThrough _ => true
  | _ => false

/-- Is this a `OneRelation` whose `fromField` is the given field name? -/
def isOneFrom (r : Relation) (fieldName : String) : Bool :=
  match r with
  | .one o => o.fromField == fieldName
  | _ => false

/-- Is this a `ManyRelation` pointing back at the given holder table? -/
def isManyOf (r : Relation) (tableName : String) : Bool :=
  match r with
  | .many m => m.table == tableName
  | _ => false

/-- Is this a `ManyThroughRelation` through the given junction, leaving it
via the given junction field? -/
def isMTOf (r : Relation) (junctionName fromF : String) : Bool :=
  match r with
  | .manyThrough m => m.junction.table == junctionName && m.junction.fromField == fromF
  | _ => false

/-- Is this a `ManyThroughRelation` through the given junction? -/
def isMTJunctionOf (r : Relation) (junctionName : String) : Bool :=
  match r with
  | .manyThrough m => m.junction.table == junctionName
  | _ => false

/-! ## Membership structure of the contribution lists -/

theorem filter_flatMap {α β : Type} (l : List α) (F : α → List β) (p : β → Bool) :
    (l.flatMap F).filter p = l.flatMap (fun a => (F a).filter p) := by
  induction l with
  | nil => simp
  | cons a rest ih => simp [List.flatMap_cons, List.filter_append, ih]

theorem mem_fieldContrib (n : String) (t : TableDef) (f : FieldDef) (r : Relation)
    (hr : r ∈ fieldContrib n t f) :
    (∃ ref, f.references = some ref ∧ t.name = n ∧ r = oneRelFor t f ref) ∨
    (∃ ref, f.references = some ref ∧ t.isJunction = false ∧
      ref.tableName = n ∧ r = manyRelFor t) := by
  unfold fieldContrib at hr
  revert hr
  cases href : f.references with
  | none =>
    intro hr
    exact absurd hr (List.not_mem_nil r)
  | some ref =>
    intro hr
    rcases List.mem_append.mp hr with hr | hr
    · by_cases hc : t.name = n
      · rw [if_pos hc, List.mem_singleton] at hr
        exact Or.inl ⟨ref, rfl, hc, hr⟩
      · rw [if_neg hc] at hr
        exact absurd hr (List.not_mem_nil r)
    · by_cases hj : t.isJunction
      · rw [if_pos hj] at hr
        exact absurd hr (List.not_mem_nil r)
      · rw [if_neg hj] at hr
        by_cases hc : ref.tableName = n
        · rw [if_pos hc, List.mem_singleton] at hr
          exact Or.inr ⟨ref, rfl, by simp [hj], hc, hr⟩
        · rw [if_neg hc] at hr
          exact absurd hr (List.not_mem_nil r)

theorem mem_junctionContrib (n : String) (t : TableDef) (r : Relation)
    (hr : r ∈ junctionContrib n t) :
    ∃ m, r = .manyThrough m ∧ m.junction.table = t.name := by
  unfold junctionContrib at hr
  revert hr
  by_cases hj : t.isJunction
  · rw [if_pos hj]
    cases t.fields.filter (fun f => f.references.isSome) with
    | nil =>
      intro hr
      exact absurd hr (List.not_mem_nil r)
    | cons fA rest =>
      cases rest with
      | nil =>
        intro hr
        exact absurd hr (List.not_mem_nil r)
      | cons fB rest2 =>
        cases rest2 with
        | cons x rest3 =>
          intro hr
          exact absurd hr (List.not_mem_nil r)
        | nil =>
          show r ∈ (match fA.references, fB.references with
              | some refA, some refB => junctionPairContrib n t fA fB refA refB
              | _, _ => ([] : List Relation)) →
            ∃ m, r = Relation.manyThrough m ∧ m.junction.table = t.name
          cases fA.references with
          | none =>
            intro hr
            exact absurd hr (List.not_mem_nil r)
          | some refA =>
            cases fB.references with
            | none =>
              intro hr
              exact absurd hr (List.not_mem_nil r)
            | some refB =>
              intro hr
              replace hr : r ∈ junctionPairContrib n t fA fB refA refB := hr
              unfold junctionPairContrib at hr
              rcases List.mem_append.mp hr with hr | hr
              · by_cases hc : refA.tableName = n
                · rw [if_pos hc, List.mem_singleton] at hr
                  exact ⟨_, hr, rfl⟩
                · rw [if_neg hc] at hr
                  exact absurd hr (List.not_mem_nil r)
              · by_cases hc : refB.tableName = n
                · rw [if_pos hc, List.mem_singleton] at hr
                  exact ⟨_, hr, rfl⟩
                · rw [if_neg hc] at hr
                  exact absurd hr (List.not_mem_nil r)
  · rw [if_neg hj]
    intro hr
    exact absurd hr (List.not_mem_nil r)

theorem pass1Contrib_not_through (n : String) (tables : List TableDef) (r : Relation)
    (hr : r ∈ pass1Contrib n tables) : isThrough r = false := by
  unfold pass1Contrib at hr
  rcases List.mem_flatMap.mp hr with ⟨t, _, hr2⟩
  rcases List.mem_flatMap.mp hr2 with ⟨f, _, hr3⟩
  rcases mem_fieldContrib n t f r hr3 with ⟨ref, _, _, hre⟩ | ⟨ref, _, _, _, hre⟩ <;>
    subst hre <;> rfl

theorem pass2Contrib_through (n : String) (tables : List TableDef) (r : Relation)
    (hr : r ∈ pass2Contrib n tables) : isThrough r = true := by
  unfold pass2Contrib at hr
  rcases List.mem_flatMap.mp hr with ⟨t, _, hr2⟩
  rcases mem_junctionContrib n t r hr2 with ⟨m, hre, _⟩
  subst hre
  rfl

theorem enumEncounterOf_mem (ft : FieldType) (e : EnumDef)
    (h : e ∈ enumEncounterOf ft) :
    ∃ values, ft = .enum e.name values ∧
      e.sqlName = toSnakeCase (replaceEnumSuffix e.name) := by
  unfold enumEncounterOf at h
  revert h
  cases ft <;> try (intro h; exact absurd h (List.not_mem_nil e))
  case enum nm values =>
    intro h
    rw [List.mem_singleton] at h
    subst h
    exact ⟨values, rfl, rfl⟩

theorem enumEncounters_mem (store : Store) (e : EnumDef)
    (h : e ∈ enumEncounters store) :
    strEndsWith e.name "Enum" = true ∧
      e.sqlName = toSnakeCase (strDropLast e.name 4) := by
  unfold enumEncounters at h
  rcases List.mem_flatMap.mp h with ⟨entry, _, he⟩
  revert he
  by_cases hk : entry.1.kind ≠ "Model"
  · rw [if_pos hk]
    intro he
    exact absurd he (List.not_mem_nil e)
  · rw [if_neg hk]
    cases store.pkTableState entry.1.id with
    | none =>
      intro he
      exact absurd he (List.not_mem_nil e)
    | some pkMeta =>
      intro he
      replace he : e ∈ entry.1.properties.flatMap (fun p => enumEncounter store p.2) := he
      rcases List.mem_flatMap.mp he with ⟨p, _, hpe⟩
      unfold enumEncounter at hpe
      obtain ⟨values, hft, hsql⟩ := enumEncounterOf_mem _ e hpe
      have hend :=
        resolveFieldType_enum_endsWith p.2 (store.uuidState p.2.id) e.name values hft
      refine ⟨hend, ?_⟩
      rw [hsql, replaceEnumSuffix_of_endsWith e.name hend]

theorem tableOf_some_fields (store : Store) (entry : Model × TableMeta) (t : TableDef)
    (h : tableOf store entry = some t) :
    t.fields = entry.1.properties.map (fun e => buildField store e.1 e.2) := by
  unfold tableOf at h
  revert h
  by_cases hk : entry.1.kind ≠ "Model"
  · rw [if_pos hk]
    intro h
    exact Option.noConfusion h
  · rw [if_neg hk]
    cases store.pkTableState entry.1.id with
    | none =>
      intro h
      exact Option.noConfusion h
    | some pkMeta =>
      intro h
      cases h
      rfl

/-! ## Claim theorems -/

/-- C6: `deriveOneRelationName` removes exactly one trailing two-character
`"Id"` suffix when the field name ends with `"Id"` (case-sensitive, no
recursive stripping — `t ++ "Id"` always maps to `t`, even when `t` itself
ends in `"Id"`) and returns the name unchanged otherwise; in particular
`authorId ↦ author`, `bookId ↦ book`, and `name ↦ name`. -/
theorem c6_deriveOneRelationName :
    (∀ t : String, deriveOneRelationName (t ++ "Id") = t) ∧
    (∀ s : String, strEndsWith s "Id" = false → deriveOneRelationName s = s) ∧
    deriveOneRelationName "authorId" = "author" ∧
    deriveOneRelationName "bookId" = "book" ∧
    deriveOneRelationName "name" = "name" ∧
    deriveOneRelationName "xIdId" = "xId" := by
  refine ⟨deriveOneRelationName_strip, deriveOneRelationName_keep, ?_, ?_, ?_, ?_⟩ <;>
    decide

/-- Witness for C6 at concrete inputs. -/
theorem c6_deriveOneRelationName_witness :
    deriveOneRelationName ("author" ++ "Id") = "author" ∧
    strEndsWith "name" "Id" = false ∧
    deriveOneRelationName "name" = "name" := by
  refine ⟨c6_deriveOneRelationName.1 "author", by decide,
    c6_deriveOneRelationName.2.1 "name" (by decide)⟩

/-- Fixture for C8/C10: a model with an enum-typed property whose enum
type is named `Status` (members `active`, `inactive`). -/
def storeStatusEnum : Store :=
  { emptyStore with
    tableState :=
      [({ id := 0
          kind := "Model"
          properties :=
            [("status",
              { id := 1, name := "status", optional := false
                type := .enum "Status"
                  [{ name := "active", value := none },
                   { name := "inactive", value := none }] })] },
        { name := "S", service := "svc" })]
    pkTableState := fun mid => if mid = 0 then some { tableName := "ss" } else none }

/-- Fixture for C8: two models in different entities whose enum-typed
properties share the derived name `statusEnum` but carry different value
lists; the first-encountered value list must win. -/
def storeTwoStatus : Store :=
  { emptyStore with
    tableState :=
      [({ id := 0
          kind := "Model"
          properties :=
            [("status",
              { id := 1, name := "status", optional := false
                type := .enum "Status" [{ name := "draft", value := none }] })] },
        { name := "S1", service := "svc" }),
       ({ id := 2
          kind := "Model"
          properties :=
            [("status",
              { id := 3, name := "status", optional := false
                type := .enum "Status"
                  [{ name := "other", value := none },
                   { name := "done", value := none }] })] },
        { name := "S2", service := "svc" })]
    pkTableState := fun mid =>
      if mid = 0 then some { tableName := "s1" }
      else if mid = 2 then some { tableName := "s2" } else none }

/-- C8: enum definitions are deduplicated by derived name across the whole
collection with the first-encountered value list winning: the output enums
named `n` are exactly the first entry named `n` of the encounter sequence
(`enumEncounters store`, one `EnumDef` per enum-typed field in entity/field
iteration order). Concretely, two entities declaring enums with the same
derived name `statusEnum` but different values contribute exactly one
`EnumDef`, carrying the first-encountered values. -/
theorem c8_enum_dedup :
    (∀ (store : Store) (n : String),
      (buildIR store).enums.filter (fun e => decide (e.name = n)) =
        ((enumEncounters store).filter (fun e => decide (e.name = n))).take 1) ∧
    (buildIR storeTwoStatus).enums =
      [{ name := "statusEnum", sqlName := "status", values := ["draft"] }] := by
  constructor
  · intro store n
    rw [buildIR_enums]
    have h := dedupFirstBy_filter n (enumEncounters store) []
    simpa using h
  · decide

/-- C10: every `EnumDef` produced by `buildIR` has a `name` ending in
`"Enum"`, and its `sqlName` is the snake-case conversion of the name with
that one trailing `"Enum"` suffix removed first; concretely an enum type
named `"Status"` yields name `"statusEnum"` and sqlName `"status"`. -/
theorem c10_enum_sqlName :
    (∀ (store : Store) (e : EnumDef), e ∈ (buildIR store).enums →
      strEndsWith e.name "Enum" = true ∧
        e.sqlName = toSnakeCase (strDropLast e.name 4)) ∧
    (buildIR storeStatusEnum).enums =
      [{ name := "statusEnum", sqlName := "status",
         values := ["active", "inactive"] }] := by
  constructor
  · intro store e he
    rw [buildIR_enums] at he
    exact enumEncounters_mem store e
      (dedupFirstBy_subset (enumEncounters store) [] e he)
  · decide

/-- The `EnumDef` the `Status` fixture produces (used by the C10 witness). -/
def statusEnumDef : EnumDef :=
  { name := "statusEnum", sqlName := "status", values := ["active", "inactive"] }

/-- Witness for C10 at the `Status` fixture. -/
theorem c10_enum_sqlName_witness :
    strEndsWith "statusEnum" "Enum" = true ∧
      "status" = toSnakeCase (strDropLast "statusEnum" 4) := by
  have hmem : statusEnumDef ∈ (buildIR storeStatusEnum).enums := by decide
  exact c10_enum_sqlName.1 storeStatusEnum statusEnumDef hmem

/-- C1 counterexample: a primary-key member declared optional keeps
`nullable = true` in the `FieldDef` produced by `buildIR` — refuting
"primary-key fields have `nullable = false` regardless of declared
optionality". -/
theorem c1_counterexample :
    ∃ t ∈ (buildIR storeOptionalPk).tables, ∃ f ∈ t.fields,
      f.name ∈ t.primaryKey.columns ∧ f.nullable = true := by
  decide

/-- C1 (amended): in `buildIR`, every field's `nullable` equals the
property's declared optionality verbatim — for primary-key members and
non-members alike; the implicit non-nullability of primary keys is
realized downstream (the column renderer emits `.primaryKey()` and skips
`.notNull()`), not in the IR. Every produced table comes from a `@table`
state entry, and its field list mirrors that model's properties with
`nullable = optional` pointwise. -/
theorem c1_nullable_follows_optionality (store : Store) :
    (∀ t ∈ (buildIR store).tables, ∃ entry ∈ store.tableState,
      tableOf store entry = some t) ∧
    (∀ entry t, tableOf store entry = some t →
      t.fields.map (fun f => (f.name, f.nullable)) =
        entry.1.properties.map (fun e => (e.1, e.2.optional))) := by
  constructor
  · intro t ht
    rw [buildIR_tables] at ht
    rcases List.mem_filterMap.mp ht with ⟨entry, hmem, hsome⟩
    exact ⟨entry, hmem, hsome⟩
  · intro entry t h
    rw [tableOf_some_fields store entry t h, List.map_map]
    rfl

/-- Witness for the amended C1 at the optional-primary-key fixture. -/
theorem c1_nullable_follows_optionality_witness :
    ∃ t ∈ (buildIR storeOptionalPk).tables,
      ∃ entry ∈ storeOptionalPk.tableState,
        tableOf storeOptionalPk entry = some t ∧
        t.fields.map (fun f => (f.name, f.nullable)) =
          entry.1.properties.map (fun e => (e.1, e.2.optional)) := by
  cases hT : (buildIR storeOptionalPk).tables with
  | nil => exact absurd hT (by decide)
  | cons t rest =>
    have hmem2 : t ∈ (buildIR storeOptionalPk).tables := by
      rw [hT]
      exact List.mem_cons_self t rest
    obtain ⟨entry, hentry, hsome⟩ :=
      (c1_nullable_follows_optionality storeOptionalPk).1 t hmem2
    exact ⟨t, List.mem_cons_self t rest, entry, hentry, hsome,
      (c1_nullable_follows_optionality storeOptionalPk).2 entry t hsome⟩

/-- C2 counterexample: two entities sharing the name `"A"` collapse onto a
single `Map` key, so the graph has one key while the input collection has
length two — refuting `buildRelationGraph(E).size === E.length` for
arbitrary `E`. -/
theorem c2_counterexample :
    buildRelationGraph [mkTable "A" [] false, mkTable "A" [] false] =
      some [("A", [])] ∧
    [("A", ([] : List Relation))].length = 1 ∧
    [mkTable "A" [] false, mkTable "A" [] false].length = 2 := by
  refine ⟨by decide, by decide, by decide⟩

/-- C2 (amended): for every produced graph, a string is a live key exactly
when it is the name of some input entity (so every entity name is a key,
possibly with an empty list, and every key is drawn from the input); the
key count equals the number of distinct entity names, hence equals
`E.length` precisely when the names are pairwise distinct. -/
theorem c2_graph_keys (tables : List TableDef) (g : RelationGraph)
    (h : buildRelationGraph tables = some g) :
    (∀ k, (mget g k).isSome ↔ k ∈ tables.map (fun t => t.name)) ∧
    ((tables.map (fun t => t.name)).Nodup → g.length = tables.length) := by
  constructor
  · intro k
    rw [mget_isSome_iff]
    exact buildRelationGraph_mem_keys tables g h k
  · intro hnd
    have hperm : (g.map Prod.fst).Perm (tables.map (fun t => t.name)) :=
      (List.perm_ext_iff_of_nodup (buildRelationGraph_keys_nodup tables g h) hnd).mpr
        (fun a => buildRelationGraph_mem_keys tables g h a)
    have hlen := hperm.length_eq
    simpa using hlen

/-- The graph of the bookstore fixture (used by witnesses). -/
def gBookstore : RelationGraph := (buildRelationGraph bookstore).getD []

/-- Witness for the amended C2 at the bookstore fixture. -/
theorem c2_graph_keys_witness :
    buildRelationGraph bookstore = some gBookstore ∧
    ((mget gBookstore "Author").isSome ↔
      "Author" ∈ bookstore.map (fun t => t.name)) ∧
    gBookstore.length = bookstore.length := by
  have hg : buildRelationGraph bookstore = some gBookstore := by decide
  have h := c2_graph_keys bookstore gBookstore hg
  exact ⟨hg, h.1 "Author", h.2 (by decide)⟩

/-- C9: for every live key, the stored relation list is exactly the pass-1
contributions followed by the pass-2 contributions: every pass-1 relation
(a `one` or a reverse `many`) precedes every pass-2 relation (a
`many-through`), and within each pass relations appear in the entity/field
iteration order of the input collection (the iteration order in which
`pass1Contrib` and `pass2Contrib` lay out their flatMaps). -/
theorem c9_relation_order (tables : List TableDef) (g : RelationGraph) (n : String)
    (h : buildRelationGraph tables = some g)
    (hn : n ∈ tables.map (fun t => t.name)) :
    mget g n = some (pass1Contrib n tables ++ pass2Contrib n tables) ∧
    (∀ r ∈ pass1Contrib n tables, isThrough r = false) ∧
    (∀ r ∈ pass2Contrib n tables, isThrough r = true) := by
  refine ⟨?_, fun r hr => pass1Contrib_not_through n tables r hr,
    fun r hr => pass2Contrib_through n tables r hr⟩
  rw [buildRelationGraph_mget tables g h n, if_pos hn]

/-- Witness for C9 at the bookstore fixture. -/
theorem c9_relation_order_witness :
    mget gBookstore "Book" =
      some (pass1Contrib "Book" bookstore ++ pass2Contrib "Book" bookstore) := by
  have h := c9_relation_order bookstore gBookstore "Book" (by decide) (by decide)
  exact h.1

/-! ## Filter computations on contribution lists (for C4/C5) -/

theorem flatMap_eq_nil {α β : Type} (l : List α) (F : α → List β)
    (h : ∀ a ∈ l, F a = []) : l.flatMap F = [] := by
  induction l with
  | nil => simp
  | cons a rest ih =>
    rw [List.flatMap_cons, h a (List.mem_cons_self a rest),
      ih (fun a2 ha2 => h a2 (List.mem_cons_of_mem a ha2))]
    rfl

theorem length_flatMap_filterlike {α β : Type} (l : List α) (G : α → List β)
    (q : α → Bool) (v : β) (h : ∀ a ∈ l, G a = if q a then [v] else []) :
    (l.flatMap G).length = l.countP q := by
  induction l with
  | nil => simp
  | cons a rest ih =>
    rw [List.flatMap_cons, List.length_append, h a (List.mem_cons_self a rest),
      ih (fun a2 ha2 => h a2 (List.mem_cons_of_mem a ha2)), List.countP_cons]
    by_cases hq : q a = true
    · simp [hq]
      omega
    · simp [hq]

theorem nodup_split_ne {α β : Type} (f : α → β) (l1 l2 : List α) (a : α)
    (h : (((l1 ++ a :: l2).map f)).Nodup) :
    (∀ u ∈ l1, f u ≠ f a) ∧ (∀ u ∈ l2, f u ≠ f a) := by
  rw [List.map_append, List.map_cons, List.nodup_append] at h
  obtain ⟨h1, h2, hdisj⟩ := h
  rw [List.nodup_cons] at h2
  constructor
  · intro u hu heq
    exact hdisj (List.mem_map_of_mem f hu)
      (by rw [heq]; exact List.mem_cons_self _ _)
  · intro u hu heq
    exact h2.1 (heq ▸ List.mem_map_of_mem f hu)

theorem fieldContrib_filter_one (n : String) (t : TableDef) (f : FieldDef)
    (fn : String) :
    (fieldContrib n t f).filter (fun r => isOneFrom r fn) =
      (match f.references with
      | some ref => if t.name = n ∧ f.name = fn then [oneRelFor t f ref] else []
      | none => []) := by
  cases href : f.references with
  | none => simp [fieldContrib, href]
  | some ref =>
    simp only [fieldContrib, href]
    rw [List.filter_append]
    have h1 : ((if t.name = n then [oneRelFor t f ref] else []) : List Relation).filter
        (fun r => isOneFrom r fn) =
        if t.name = n ∧ f.name = fn then [oneRelFor t f ref] else [] := by
      by_cases hc : t.name = n
      · rw [if_pos hc]
        by_cases hfn : f.name = fn
        · rw [if_pos ⟨hc, hfn⟩]
          simp [isOneFrom, oneRelFor, hfn]
        · rw [if_neg (fun hh => hfn hh.2)]
          simp [isOneFrom, oneRelFor, hfn]
      · rw [if_neg hc, if_neg (fun hh => hc hh.1)]
        simp
    have h2 : ((if t.isJunction then []
        else if ref.tableName = n then [manyRelFor t] else []) : List Relation).filter
        (fun r => isOneFrom r fn) = [] := by
      by_cases hj : t.isJunction
      · simp [hj]
      · by_cases hc : ref.tableName = n <;> simp [hj, hc, isOneFrom, manyRelFor]
    rw [h1, h2, List.append_nil]

theorem fieldContrib_filter_many (n : String) (t : TableDef) (f : FieldDef)
    (tn : String) :
    (fieldContrib n t f).filter (fun r => isManyOf r tn) =
      (match f.references with
      | some ref =>
        if t.isJunction = false ∧ ref.tableName = n ∧ t.name = tn
        then [manyRelFor t] else []
      | none => []) := by
  cases href : f.references with
  | none => simp [fieldContrib, href]
  | some ref =>
    simp only [fieldContrib, href]
    rw [List.filter_append]
    have h1 : ((if t.name = n then [oneRelFor t f ref] else []) : List Relation).filter
        (fun r => isManyOf r tn) = [] := by
      by_cases hc : t.name = n <;> simp [hc, isManyOf, oneRelFor]
    have h2 : ((if t.isJunction then []
        else if ref.tableName = n then [manyRelFor t] else []) : List Relation).filter
        (fun r => isManyOf r tn) =
        if t.isJunction = false ∧ ref.tableName = n ∧ t.name = tn
        then [manyRelFor t] else [] := by
      by_cases hj : t.isJunction
      · rw [if_pos hj, if_neg (fun hh => by rw [hj] at hh; exact Bool.noConfusion hh.1)]
        rfl
      · rw [if_neg hj]
        have hjf : t.isJunction = false := by
          cases hb : t.isJunction
          · rfl
          · exact absurd hb hj
        by_cases hc : ref.tableName = n
        · rw [if_pos hc]
          by_cases htn : t.name = tn
          · rw [if_pos ⟨hjf, hc, htn⟩]
            simp [isManyOf, manyRelFor, htn]
          · rw [if_neg (fun hh => htn hh.2.2)]
            simp [isManyOf, manyRelFor, htn]
        · rw [if_neg hc, if_neg (fun hh => hc hh.2.1)]
          rfl
    rw [h1, h2, List.nil_append]

theorem junctionContrib_filter_one (n : String) (t : TableDef) (fn : String) :
    (junctionContrib n t).filter (fun r => isOneFrom r fn) = [] := by
  rw [List.filter_eq_nil_iff]
  intro r hr
  rcases mem_junctionContrib n t r hr with ⟨m, hre, _⟩
  subst hre
  simp [isOneFrom]

theorem junctionContrib_filter_many (n : String) (t : TableDef) (tn : String) :
    (junctionContrib n t).filter (fun r => isManyOf r tn) = [] := by
  rw [List.filter_eq_nil_iff]
  intro r hr
  rcases mem_junctionContrib n t r hr with ⟨m, hre, _⟩
  subst hre
  simp [isManyOf]

theorem fieldsContrib_filter_one_ne (n : String) (u : TableDef) (fn : String)
    (hne : u.name ≠ n) :
    (u.fields.flatMap (fieldContrib n u)).filter (fun r => isOneFrom r fn) = [] := by
  rw [filter_flatMap]
  apply flatMap_eq_nil
  intro f2 _
  rw [fieldContrib_filter_one]
  cases f2.references with
  | none => rfl
  | some ref2 =>
    show (if u.name = n ∧ f2.name = fn then [oneRelFor u f2 ref2] else []) = []
    rw [if_neg (fun hh => hne hh.1)]

theorem fieldsContrib_filter_many_ne (n : String) (u : TableDef) (tn : String)
    (hne : u.name ≠ tn) :
    (u.fields.flatMap (fieldContrib n u)).filter (fun r => isManyOf r tn) = [] := by
  rw [filter_flatMap]
  apply flatMap_eq_nil
  intro f2 _
  rw [fieldContrib_filter_many]
  cases f2.references with
  | none => rfl
  | some ref2 =>
    show (if u.isJunction = false ∧ ref2.tableName = n ∧ u.name = tn
      then [manyRelFor u] else []) = []
    rw [if_neg (fun hh => hne hh.2.2)]

theorem pass2Contrib_filter_one (n : String) (tables : List TableDef) (fn : String) :
    (pass2Contrib n tables).filter (fun r => isOneFrom r fn) = [] := by
  unfold pass2Contrib
  rw [filter_flatMap]
  apply flatMap_eq_nil
  intro u _
  exact junctionContrib_filter_one n u fn

theorem pass2Contrib_filter_many (n : String) (tables : List TableDef) (tn : String) :
    (pass2Contrib n tables).filter (fun r => isManyOf r tn) = [] := by
  unfold pass2Contrib
  rw [filter_flatMap]
  apply flatMap_eq_nil
  intro u _
  exact junctionContrib_filter_many n u tn

/-- C4: for a field `f` with a `references` target on entity `t` (in a
collection with distinct entity names and, within `t`, distinct field
names, whose target is present in the collection): `t`'s relation list
contains exactly one `OneRelation` with `fromField = f.name`, namely the
one whose `optional` equals `f.nullable`; and the number of reverse
`ManyRelation`s from `t` on the target's list is one per
reference-carrying field of `t` aimed at that target when `t` is not a
junction, and zero when `t` is a junction. -/
theorem c4_pass1 (tables : List TableDef) (g : RelationGraph) (t : TableDef)
    (f : FieldDef) (ref : FieldReference)
    (hg : buildRelationGraph tables = some g)
    (hnames : (tables.map (fun u => u.name)).Nodup)
    (ht : t ∈ tables)
    (hf : f ∈ t.fields)
    (hfnames : (t.fields.map (fun u => u.name)).Nodup)
    (href : f.references = some ref)
    (htarget : ref.tableName ∈ tables.map (fun u => u.name)) :
    (∃ l, mget g t.name = some l ∧
      l.filter (fun r => isOneFrom r f.name) =
        [Relation.one
          { name := deriveOneRelationName f.name
            fromTable := t.name
            fromField := f.name
            toTable := ref.tableName
            toField := ref.fieldName
            optional := f.nullable }]) ∧
    (∃ lt, mget g ref.tableName = some lt ∧
      (lt.filter (fun r => isManyOf r t.name)).length =
        (if t.isJunction then 0
         else t.fields.countP (fun f2 =>
          match f2.references with
          | some r2 => decide (r2.tableName = ref.tableName)
          | none => false))) := by
  have htn : t.name ∈ tables.map (fun u => u.name) :=
    List.mem_map_of_mem (fun u => u.name) ht
  have hL := buildRelationGraph_mget tables g hg t.name
  rw [if_pos htn] at hL
  have hLt := buildRelationGraph_mget tables g hg ref.tableName
  rw [if_pos htarget] at hLt
  obtain ⟨l1, l2, hsplit⟩ := List.append_of_mem ht
  obtain ⟨m1, m2, hfsplit⟩ := List.append_of_mem hf
  have hnames2 := hsplit ▸ hnames
  have hfnames2 := hfsplit ▸ hfnames
  have hTne := nodup_split_ne (fun u => u.name) l1 l2 t hnames2
  have hFne := nodup_split_ne (fun u => u.name) m1 m2 f hfnames2
  constructor
  · refine ⟨_, hL, ?_⟩
    rw [List.filter_append, pass2Contrib_filter_one, List.append_nil]
    unfold pass1Contrib
    rw [hsplit, List.flatMap_append, List.flatMap_cons, List.filter_append,
      List.filter_append]
    have ha : (l1.flatMap (fun u => u.fields.flatMap (fieldContrib t.name u))).filter
        (fun r => isOneFrom r f.name) = [] := by
      rw [filter_flatMap]
      apply flatMap_eq_nil
      intro u hu
      exact fieldsContrib_filter_one_ne t.name u f.name (hTne.1 u hu)
    have hb : (l2.flatMap (fun u => u.fields.flatMap (fieldContrib t.name u))).filter
        (fun r => isOneFrom r f.name) = [] := by
      rw [filter_flatMap]
      apply flatMap_eq_nil
      intro u hu
      exact fieldsContrib_filter_one_ne t.name u f.name (hTne.2 u hu)
    have hc : (t.fields.flatMap (fieldContrib t.name t)).filter
        (fun r => isOneFrom r f.name) =
        [oneRelFor t f ref] := by
      rw [filter_flatMap, hfsplit, List.flatMap_append, List.flatMap_cons]
      have hm1 : m1.flatMap
          (fun f2 => (fieldContrib t.name t f2).filter (fun r => isOneFrom r f.name)) =
          [] := by
        apply flatMap_eq_nil
        intro f2 hf2
        rw [fieldContrib_filter_one]
        cases f2.references with
        | none => rfl
        | some ref2 =>
          show (if t.name = t.name ∧ f2.name = f.name
            then [oneRelFor t f2 ref2] else []) = []
          rw [if_neg (fun hh => hFne.1 f2 hf2 hh.2)]
      have hm2 : m2.flatMap
          (fun f2 => (fieldContrib t.name t f2).filter (fun r => isOneFrom r f.name)) =
          [] := by
        apply flatMap_eq_nil
        intro f2 hf2
        rw [fieldContrib_filter_one]
        cases f2.references with
        | none => rfl
        | some ref2 =>
          show (if t.name = t.name ∧ f2.name = f.name
            then [oneRelFor t f2 ref2] else []) = []
          rw [if_neg (fun hh => hFne.2 f2 hf2 hh.2)]
      have hown : (fieldContrib t.name t f).filter (fun r => isOneFrom r f.name) =
          [oneRelFor t f ref] := by
        rw [fieldContrib_filter_one, href]
        show (if t.name = t.name ∧ f.name = f.name
          then [oneRelFor t f ref] else []) = [oneRelFor t f ref]
        rw [if_pos ⟨rfl, rfl⟩]
      rw [hm1, hown, hm2]
      rfl
    rw [ha, hb, hc]
    rfl
  · refine ⟨_, hLt, ?_⟩
    rw [List.filter_append, pass2Contrib_filter_many, List.append_nil]
    unfold pass1Contrib
    rw [hsplit, List.flatMap_append, List.flatMap_cons, List.filter_append,
      List.filter_append]
    have ha : (l1.flatMap (fun u => u.fields.flatMap (fieldContrib ref.tableName u))).filter
        (fun r => isManyOf r t.name) = [] := by
      rw [filter_flatMap]
      apply flatMap_eq_nil
      intro u hu
      exact fieldsContrib_filter_many_ne ref.tableName u t.name (hTne.1 u hu)
    have hb : (l2.flatMap (fun u => u.fields.flatMap (fieldContrib ref.tableName u))).filter
        (fun r => isManyOf r t.name) = [] := by
      rw [filter_flatMap]
      apply flatMap_eq_nil
      intro u hu
      exact fieldsContrib_filter_many_ne ref.tableName u t.name (hTne.2 u hu)
    rw [ha, hb, List.nil_append, List.append_nil]
    by_cases hj : t.isJunction
    · rw [if_pos hj]
      have hown : (t.fields.flatMap (fieldContrib ref.tableName t)).filter
          (fun r => isManyOf r t.name) = [] := by
        rw [filter_flatMap]
        apply flatMap_eq_nil
        intro f2 _
        rw [fieldContrib_filter_many]
        cases f2.references with
        | none => rfl
        | some ref2 =>
          show (if t.isJunction = false ∧ ref2.tableName = ref.tableName ∧
              t.name = t.name then [manyRelFor t] else []) = []
          rw [if_neg (fun hh => by rw [hj] at hh; exact Bool.noConfusion hh.1)]
      rw [hown]
      rfl
    · rw [if_neg hj]
      have hjf : t.isJunction = false := by
        cases hb2 : t.isJunction
        · rfl
        · exact absurd hb2 hj
      rw [filter_flatMap]
      have hlen := length_flatMap_filterlike t.fields
        (fun f2 => (fieldContrib ref.tableName t f2).filter (fun r => isManyOf r t.name))
        (fun f2 =>
          match f2.references with
          | some r2 => decide (r2.tableName = ref.tableName)
          | none => false)
        (manyRelFor t) ?_
      · rw [hlen]
      · intro f2 _
        show (fieldContrib ref.tableName t f2).filter (fun r => isManyOf r t.name) =
          if (match f2.references with
            | some r2 => decide (r2.tableName = ref.tableName)
            | none => false) = true
          then [manyRelFor t] else []
        rw [fieldContrib_filter_many]
        cases f2.references with
        | none => rfl
        | some ref2 =>
          show (if t.isJunction = false ∧ ref2.tableName = ref.tableName ∧
              t.name = t.name then [manyRelFor t] else []) =
            if decide (ref2.tableName = ref.tableName) = true
            then [manyRelFor t] else []
          by_cases hc : ref2.tableName = ref.tableName
          · rw [if_pos ⟨hjf, hc, rfl⟩, if_pos (by simp [hc])]
          · rw [if_neg (fun hh => hc hh.2.1), if_neg (by simp [hc])]

theorem fieldContrib_filter_mtof (n : String) (t : TableDef) (f : FieldDef)
    (jn fr : String) :
    (fieldContrib n t f).filter (fun r => isMTOf r jn fr) = [] := by
  rw [List.filter_eq_nil_iff]
  intro r hr
  rcases mem_fieldContrib n t f r hr with ⟨ref, _, _, hre⟩ | ⟨ref, _, _, _, hre⟩ <;>
    subst hre <;> simp [isMTOf, oneRelFor, manyRelFor]

theorem fieldContrib_filter_mtj (n : String) (t : TableDef) (f : FieldDef)
    (jn : String) :
    (fieldContrib n t f).filter (fun r => isMTJunctionOf r jn) = [] := by
  rw [List.filter_eq_nil_iff]
  intro r hr
  rcases mem_fieldContrib n t f r hr with ⟨ref, _, _, hre⟩ | ⟨ref, _, _, _, hre⟩ <;>
    subst hre <;> simp [isMTJunctionOf, oneRelFor, manyRelFor]

theorem pass1Contrib_filter_mtof (n : String) (tables : List TableDef)
    (jn fr : String) :
    (pass1Contrib n tables).filter (fun r => isMTOf r jn fr) = [] := by
  unfold pass1Contrib
  rw [filter_flatMap]
  apply flatMap_eq_nil
  intro u _
  rw [filter_flatMap]
  apply flatMap_eq_nil
  intro f2 _
  exact fieldContrib_filter_mtof n u f2 jn fr

theorem pass1Contrib_filter_mtj (n : String) (tables : List TableDef)
    (jn : String) :
    (pass1Contrib n tables).filter (fun r => isMTJunctionOf r jn) = [] := by
  unfold pass1Contrib
  rw [filter_flatMap]
  apply flatMap_eq_nil
  intro u _
  rw [filter_flatMap]
  apply flatMap_eq_nil
  intro f2 _
  exact fieldContrib_filter_mtj n u f2 jn

theorem junctionContrib_filter_mtof_ne (n : String) (u : TableDef)
    (jn fr : String) (hne : u.name ≠ jn) :
    (junctionContrib n u).filter (fun r => isMTOf r jn fr) = [] := by
  rw [List.filter_eq_nil_iff]
  intro r hr
  rcases mem_junctionContrib n u r hr with ⟨m, hre, hjt⟩
  subst hre
  simp [isMTOf, hjt, hne]

theorem junctionContrib_filter_mtj_ne (n : String) (u : TableDef)
    (jn : String) (hne : u.name ≠ jn) :
    (junctionContrib n u).filter (fun r => isMTJunctionOf r jn) = [] := by
  rw [List.filter_eq_nil_iff]
  intro r hr
  rcases mem_junctionContrib n u r hr with ⟨m, hre, hjt⟩
  subst hre
  simp [isMTJunctionOf, hjt, hne]

theorem junctionContrib_eq_pair (n : String) (t : TableDef) (fA fB : FieldDef)
    (refA refB : FieldReference) (hj : t.isJunction = true)
    (hfl : t.fields.filter (fun f2 => f2.references.isSome) = [fA, fB])
    (hra : fA.references = some refA) (hrb : fB.references = some refB) :
    junctionContrib n t = junctionPairContrib n t fA fB refA refB := by
  unfold junctionContrib
  rw [if_pos hj, hfl]
  show (match fA.references, fB.references with
    | some a, some b => junctionPairContrib n t fA fB a b
    | _, _ => ([] : List Relation)) = junctionPairContrib n t fA fB refA refB
  rw [hra, hrb]

theorem junctionContrib_nil_of_len (n : String) (t : TableDef)
    (hlen : (t.fields.filter (fun f2 => f2.references.isSome)).length ≠ 2) :
    junctionContrib n t = [] := by
  unfold junctionContrib
  by_cases hj : t.isJunction
  · rw [if_pos hj]
    revert hlen
    cases t.fields.filter (fun f2 => f2.references.isSome) with
    | nil => intro _; rfl
    | cons a rest =>
      cases rest with
      | nil => intro _; rfl
      | cons b rest2 =>
        cases rest2 with
        | nil =>
          intro hlen
          exact absurd rfl hlen
        | cons c rest3 => intro _; rfl
  · rw [if_neg hj]

theorem junctionPairContrib_filter_A (n : String) (t : TableDef) (fA fB : FieldDef)
    (refA refB : FieldReference) (hAB : fA.name ≠ fB.name) (hn : refA.tableName = n) :
    (junctionPairContrib n t fA fB refA refB).filter
      (fun r => isMTOf r t.name fA.name) = [throughRelFor t fA fB refA refB] := by
  unfold junctionPairContrib
  rw [List.filter_append, if_pos hn]
  have h1 : ([throughRelFor t fA fB refA refB] : List Relation).filter
      (fun r => isMTOf r t.name fA.name) = [throughRelFor t fA fB refA refB] := by
    simp [isMTOf, throughRelFor]
  have h2 : ((if refB.tableName = n then [throughRelFor t fB fA refB refA] else []) :
      List Relation).filter (fun r => isMTOf r t.name fA.name) = [] := by
    by_cases hc : refB.tableName = n <;>
      simp [hc, isMTOf, throughRelFor, Ne.symm hAB]
  rw [h1, h2, List.append_nil]

theorem junctionPairContrib_filter_B (n : String) (t : TableDef) (fA fB : FieldDef)
    (refA refB : FieldReference) (hAB : fA.name ≠ fB.name) (hn : refB.tableName = n) :
    (junctionPairContrib n t fA fB refA refB).filter
      (fun r => isMTOf r t.name fB.name) = [throughRelFor t fB fA refB refA] := by
  unfold junctionPairContrib
  rw [List.filter_append, if_pos hn]
  have h1 : ((if refA.tableName = n then [throughRelFor t fA fB refA refB] else []) :
      List Relation).filter (fun r => isMTOf r t.name fB.name) = [] := by
    by_cases hc : refA.tableName = n <;>
      simp [hc, isMTOf, throughRelFor, hAB]
  have h2 : ([throughRelFor t fB fA refB refA] : List Relation).filter
      (fun r => isMTOf r t.name fB.name) = [throughRelFor t fB fA refB refA] := by
    simp [isMTOf, throughRelFor]
  rw [h1, h2, List.nil_append]

/-- C5: in pass 2, a junction `J` (in a collection with distinct entity
names and distinct field names inside `J`) whose reference-carrying fields
are exactly `[fA, fB]` with live targets appends exactly one
`ManyThroughRelation` through `J` leaving via `fA` to target A's list —
pointing at B, with `junction = {table := J.name, fromField := fA.name,
toField := fB.name}` — and the symmetric relation to target B's list;
while a junction whose reference-carrying field count is not exactly two
appends no `ManyThroughRelation` through `J` to any list. -/
theorem c5_junction (tables : List TableDef) (g : RelationGraph) (J : TableDef)
    (hg : buildRelationGraph tables = some g)
    (hnames : (tables.map (fun u => u.name)).Nodup)
    (hJ : J ∈ tables)
    (hjunc : J.isJunction = true)
    (hfnames : (J.fields.map (fun u => u.name)).Nodup) :
    (∀ fA fB refA refB,
      J.fields.filter (fun f2 => f2.references.isSome) = [fA, fB] →
      fA.references = some refA →
      fB.references = some refB →
      refA.tableName ∈ tables.map (fun u => u.name) →
      refB.tableName ∈ tables.map (fun u => u.name) →
      (∃ lA, mget g refA.tableName = some lA ∧
        lA.filter (fun r => isMTOf r J.name fA.name) =
          [throughRelFor J fA fB refA refB]) ∧
      (∃ lB, mget g refB.tableName = some lB ∧
        lB.filter (fun r => isMTOf r J.name fB.name) =
          [throughRelFor J fB fA refB refA])) ∧
    ((J.fields.filter (fun f2 => f2.references.isSome)).length ≠ 2 →
      ∀ n l, mget g n = some l →
        l.filter (fun r => isMTJunctionOf r J.name) = []) := by
  obtain ⟨l1, l2, hsplit⟩ := List.append_of_mem hJ
  have hTne := nodup_split_ne (fun u => u.name) l1 l2 J (hsplit ▸ hnames)
  constructor
  · intro fA fB refA refB hfl hra hrb htA htB
    have hsub : [fA, fB].Sublist J.fields := by
      rw [← hfl]
      exact List.filter_sublist J.fields
    have hABnd : ((([fA, fB] : List FieldDef).map (fun u => u.name))).Nodup :=
      List.Nodup.sublist (List.Sublist.map (fun u => u.name) hsub) hfnames
    have hAB : fA.name ≠ fB.name := by
      simp only [List.map_cons, List.map_nil] at hABnd
      rw [List.nodup_cons] at hABnd
      exact fun hh => hABnd.1 (by rw [hh]; exact List.mem_cons_self _ _)
    have hpair := junctionContrib_eq_pair
    constructor
    · have hLA := buildRelationGraph_mget tables g hg refA.tableName
      rw [if_pos htA] at hLA
      refine ⟨_, hLA, ?_⟩
      rw [List.filter_append, pass1Contrib_filter_mtof, List.nil_append]
      unfold pass2Contrib
      rw [hsplit, List.flatMap_append, List.flatMap_cons, List.filter_append,
        List.filter_append]
      have ha : (l1.flatMap (junctionContrib refA.tableName)).filter
          (fun r => isMTOf r J.name fA.name) = [] := by
        rw [filter_flatMap]
        apply flatMap_eq_nil
        intro u hu
        exact junctionContrib_filter_mtof_ne _ u _ _ (hTne.1 u hu)
      have hb : (l2.flatMap (junctionContrib refA.tableName)).filter
          (fun r => isMTOf r J.name fA.name) = [] := by
        rw [filter_flatMap]
        apply flatMap_eq_nil
        intro u hu
        exact junctionContrib_filter_mtof_ne _ u _ _ (hTne.2 u hu)
      have hc : (junctionContrib refA.tableName J).filter
          (fun r => isMTOf r J.name fA.name) = [throughRelFor J fA fB refA refB] := by
        rw [junctionContrib_eq_pair refA.tableName J fA fB refA refB hjunc hfl hra hrb]
        exact junctionPairContrib_filter_A refA.tableName J fA fB refA refB hAB rfl
      rw [ha, hb, hc]
      rfl
    · have hLB := buildRelationGraph_mget tables g hg refB.tableName
      rw [if_pos htB] at hLB
      refine ⟨_, hLB, ?_⟩
      rw [List.filter_append, pass1Contrib_filter_mtof, List.nil_append]
      unfold pass2Contrib
      rw [hsplit, List.flatMap_append, List.flatMap_cons, List.filter_append,
        List.filter_append]
      have ha : (l1.flatMap (junctionContrib refB.tableName)).filter
          (fun r => isMTOf r J.name fB.name) = [] := by
        rw [filter_flatMap]
        apply flatMap_eq_nil
        intro u hu
        exact junctionContrib_filter_mtof_ne _ u _ _ (hTne.1 u hu)
      have hb : (l2.flatMap (junctionContrib refB.tableName)).filter
          (fun r => isMTOf r J.name fB.name) = [] := by
        rw [filter_flatMap]
        apply flatMap_eq_nil
        intro u hu
        exact junctionContrib_filter_mtof_ne _ u _ _ (hTne.2 u hu)
      have hc : (junctionContrib refB.tableName J).filter
          (fun r => isMTOf r J.name fB.name) = [throughRelFor J fB fA refB refA] := by
        rw [junctionContrib_eq_pair refB.tableName J fA fB refA refB hjunc hfl hra hrb]
        exact junctionPairContrib_filter_B refB.tableName J fA fB refA refB hAB rfl
      rw [ha, hb, hc]
      rfl
  · intro hlen n l hl
    have hchar := buildRelationGraph_mget tables g hg n
    by_cases hn : n ∈ tables.map (fun u => u.name)
    · rw [if_pos hn, hl] at hchar
      have hle : l = pass1Contrib n tables ++ pass2Contrib n tables :=
        Option.some.inj hchar
      rw [hle, List.filter_append, pass1Contrib_filter_mtj, List.nil_append]
      unfold pass2Contrib
      rw [filter_flatMap]
      apply flatMap_eq_nil
      intro u hu
      by_cases hne : u.name = J.name
      · have huJ : u = J := List.inj_on_of_nodup_map hnames hu hJ hne
        rw [huJ, junctionContrib_nil_of_len n J hlen]
        rfl
      · exact junctionContrib_filter_mtj_ne n u J.name hne
    · rw [if_neg hn, hl] at hchar
      exact Option.noConfusion hchar

/-- `Book`'s relation list in the bookstore fixture graph. -/
def lBook : List Relation := (mget gBookstore "Book").getD []

/-- `Author`'s relation list in the bookstore fixture graph. -/
def lAuthor : List Relation := (mget gBookstore "Author").getD []

/-- Witness for C4 at the bookstore fixture (`Book.authorId → Author`). -/
theorem c4_pass1_witness :
    lBook.filter (fun r => isOneFrom r "authorId") =
      [Relation.one
        { name := "author", fromTable := "Book", fromField := "authorId",
          toTable := "Author", toField := "authorId", optional := false }] ∧
    (lAuthor.filter (fun r => isManyOf r "Book")).length = 1 := by
  have h := c4_pass1 bookstore gBookstore tBook
    (mkField "authorId" false (some { tableName := "Author", fieldName := "authorId" }))
    { tableName := "Author", fieldName := "authorId" }
    (by decide) (by decide) (by decide) (by decide) (by decide) (by decide) (by decide)
  obtain ⟨⟨l, hl, hfil⟩, ⟨lt, hlt, hcount⟩⟩ := h
  have h2 : mget gBookstore "Book" = some lBook := by decide
  have h3 : mget gBookstore "Author" = some lAuthor := by decide
  have he : l = lBook := Option.some.inj (hl.symm.trans h2)
  have he2 : lt = lAuthor := Option.some.inj (hlt.symm.trans h3)
  constructor
  · rw [← he]
    exact hfil
  · rw [← he2]
    exact hcount

/-- Witness for C5 at the bookstore fixture (junction `BookGenre`). -/
theorem c5_junction_witness :
    lBook.filter (fun r => isMTOf r "BookGenre" "bookId") =
      [throughRelFor tBookGenre
        (mkField "bookId" false (some { tableName := "Book", fieldName := "bookId" }))
        (mkField "genreId" false (some { tableName := "Genre", fieldName := "genreId" }))
        { tableName := "Book", fieldName := "bookId" }
        { tableName := "Genre", fieldName := "genreId" }] := by
  have h := (c5_junction bookstore gBookstore tBookGenre (by decide) (by decide)
      (by decide) (by decide) (by decide)).1
    (mkField "bookId" false (some { tableName := "Book", fieldName := "bookId" }))
    (mkField "genreId" false (some { tableName := "Genre", fieldName := "genreId" }))
    { tableName := "Book", fieldName := "bookId" }
    { tableName := "Genre", fieldName := "genreId" }
    (by decide) (by decide) (by decide) (by decide) (by decide)
  obtain ⟨⟨lA, hlA, hfil⟩, _⟩ := h
  have h2 : mget gBookstore "Book" = some lBook := by decide
  have he : lA = lBook := Option.some.inj (hlA.symm.trans h2)
  rw [← he]
  exact hfil

/-! ## Totality of `buildRelationGraph` on non-empty names (for C3) -/

theorem toTableVariableName_isSome (s : String) (h : s ≠ "") :
    (toTableVariableName s).isSome = true := by
  unfold toTableVariableName
  cases hd : s.data with
  | nil =>
    exfalso
    exact h (by
      cases s with
      | mk data =>
        have hd2 : data = [] := hd
        rw [hd2])
  | cons c cs => rfl

theorem mpushOpt_isSome (g : RelationGraph) (k : String) (mk : String → Relation)
    (nm : Option String) (h : nm.isSome = true) :
    (mpushOpt g k mk nm).isSome = true := by
  unfold mpushOpt
  by_cases hs : (mget g k).isSome
  · rw [if_pos hs]
    cases nm with
    | none => simp at h
    | some n0 => rfl
  · rw [if_neg hs]
    rfl

theorem foldlM_isSome {α : Type} (step : RelationGraph → α → Option RelationGraph) :
    ∀ (l : List α), (∀ g a, a ∈ l → (step g a).isSome = true) →
      ∀ g, (l.foldlM step g).isSome = true := by
  intro l
  induction l with
  | nil =>
    intro _ g
    rfl
  | cons a rest ih =>
    intro hstep g
    rw [List.foldlM_cons]
    cases hs : step g a with
    | none =>
      have h2 := hstep g a (List.mem_cons_self a rest)
      rw [hs] at h2
      simp at h2
    | some g1 =>
      show (rest.foldlM step g1).isSome = true
      exact ih (fun g2 a2 ha2 => hstep g2 a2 (List.mem_cons_of_mem a ha2)) g1

theorem pass1Field_isSome (t : TableDef) (g : RelationGraph) (f : FieldDef)
    (h : t.name ≠ "") : (pass1Field t g f).isSome = true := by
  cases href : f.references with
  | none => simp [pass1Field, href]
  | some ref =>
    simp only [pass1Field, href]
    by_cases hj : t.isJunction
    · rw [if_pos hj]
      rfl
    · rw [if_neg hj]
      exact mpushOpt_isSome _ _ _ _ (toTableVariableName_isSome t.name h)

theorem pass2Table_isSome (g : RelationGraph) (t : TableDef)
    (h2 : ∀ f2 ∈ t.fields, ∀ r2, f2.references = some r2 → r2.tableName ≠ "") :
    (pass2Table g t).isSome = true := by
  unfold pass2Table
  by_cases hj : t.isJunction
  · rw [if_pos hj]
    cases hfl : t.fields.filter (fun f2 => f2.references.isSome) with
    | nil => rfl
    | cons fA rest =>
      cases rest with
      | nil => rfl
      | cons fB rest2 =>
        cases rest2 with
        | cons x rest3 => rfl
        | nil =>
          have hfA : fA ∈ t.fields :=
            List.mem_of_mem_filter (by rw [hfl]; exact List.mem_cons_self _ _)
          have hfB : fB ∈ t.fields :=
            List.mem_of_mem_filter
              (by rw [hfl]; exact List.mem_cons_of_mem _ (List.mem_cons_self _ _))
          show (match fA.references, fB.references with
            | some refA, some refB => pass2Push g t fA fB refA refB
            | _, _ => some g).isSome = true
          cases hra : fA.references with
          | none => rfl
          | some refA =>
            cases hrb : fB.references with
            | none => rfl
            | some refB =>
              show (pass2Push g t fA fB refA refB).isSome = true
              unfold pass2Push
              cases hstep : mpushOpt g refA.tableName
                  (fun n2 => Relation.manyThrough
                    { name := n2, fromTable := refA.tableName,
                      fromField := refA.fieldName,
                      toTable := refB.tableName, toField := refB.fieldName,
                      junction := { table := t.name, fromField := fA.name,
                                    toField := fB.name } })
                  (toTableVariableName refB.tableName) with
              | none =>
                have hsome := mpushOpt_isSome g refA.tableName
                  (fun n2 => Relation.manyThrough
                    { name := n2, fromTable := refA.tableName,
                      fromField := refA.fieldName,
                      toTable := refB.tableName, toField := refB.fieldName,
                      junction := { table := t.name, fromField := fA.name,
                                    toField := fB.name } })
                  (toTableVariableName refB.tableName)
                  (toTableVariableName_isSome refB.tableName (h2 fB hfB refB hrb))
                rw [hstep] at hsome
                simp at hsome
              | some g1 =>
                show (mpushOpt g1 refB.tableName
                  (fun n2 => Relation.manyThrough
                    { name := n2, fromTable := refB.tableName,
                      fromField := refB.fieldName,
                      toTable := refA.tableName, toField := refA.fieldName,
                      junction := { table := t.name, fromField := fB.name,
                                    toField := fA.name } })
                  (toTableVariableName refA.tableName)).isSome = true
                exact mpushOpt_isSome g1 refB.tableName _ _
                  (toTableVariableName_isSome refA.tableName (h2 fA hfA refA hra))
  · rw [if_neg hj]
    rfl

theorem buildRelationGraph_isSome (tables : List TableDef)
    (h1 : ∀ u ∈ tables, u.name ≠ "")
    (h2 : ∀ u ∈ tables, ∀ f2 ∈ u.fields, ∀ r2, f2.references = some r2 →
      r2.tableName ≠ "") :
    (buildRelationGraph tables).isSome = true := by
  unfold buildRelationGraph
  cases hp1 : tables.foldlM pass1Table (initGraph tables) with
  | none =>
    have hsome := foldlM_isSome pass1Table tables
      (fun g t ht => foldlM_isSome (pass1Field t) t.fields
        (fun g2 f2 _ => pass1Field_isSome t g2 f2 (h1 t ht)) g)
      (initGraph tables)
    rw [hp1] at hsome
    simp at hsome
  | some g1 =>
    show (tables.foldlM pass2Table g1).isSome = true
    exact foldlM_isSome pass2Table tables
      (fun g t ht => pass2Table_isSome g t (fun f2 hf2 r2 hr2 => h2 t ht f2 hf2 r2 hr2)) g1

/-! ## C3: failure semantics and dangling references -/

/-- The reference carried by the dangling field (its target `Y` is absent
from the input collection). -/
def refYid : FieldReference := { tableName := "Y", fieldName := "id" }

/-- The dangling field itself. -/
def fldYId : FieldDef := mkField "yId" false (some refYid)

/-- Table `X` whose only field references the absent entity `Y`. -/
def tXdangle : TableDef := mkTable "X" [fldYId] false

/-- The `OneRelation` that the dangling edge nevertheless deposits on `X`'s
own list. -/
def relXone : Relation :=
  .one { name := "y", fromTable := "X", fromField := "yId",
         toTable := "Y", toField := "id", optional := false }

/-- A live target table `Z`. -/
def tZlive : TableDef := mkTable "Z" [] false

/-- A table with an empty name whose field references the live `Z`: pass 1
reaches `toTableVariableName ""`, which throws a `TypeError` in JS
(`name[0].toLowerCase()` on `undefined`). -/
def tEmptyName : TableDef :=
  mkTable "" [mkField "zId" false (some { tableName := "Z", fieldName := "id" })] false

/-- A present target table `A` for the junction-holder counterexample. -/
def tAtarget : TableDef := mkTable "A" [] false

/-- The junction's live reference field (`aId → A.id`). -/
def fldAId : FieldDef :=
  mkField "aId" false (some { tableName := "A", fieldName := "id" })

/-- Junction `J` holding one live reference (`aId → A`) and one dangling
reference (`yId → Y`, target absent): two reference fields, so pass 2
fires and pushes onto `A`'s list. -/
def tJdangle : TableDef := mkTable "J" [fldAId, fldYId] true

/-- The same junction with the dangling field removed: only one reference
field remains, so pass 2 skips it and `A`'s list stays empty. -/
def tJpruned : TableDef := mkTable "J" [fldAId] true

/-- The `OneRelation` for the junction's live reference. -/
def relJoneA : Relation :=
  .one { name := "a", fromTable := "J", fromField := "aId",
         toTable := "A", toField := "id", optional := false }

/-- The `OneRelation` for the junction's dangling reference. -/
def relJoneY : Relation :=
  .one { name := "y", fromTable := "J", fromField := "yId",
         toTable := "Y", toField := "id", optional := false }

/-- The `ManyThroughRelation` that the dangling edge causes on `A`'s list
(its name is `pluralize "y" = "ies"`; the target key `Y` is absent, so the
symmetric push is skipped). -/
def relAthrough : Relation :=
  .manyThrough { name := "ies", fromTable := "A", fromField := "id",
                 toTable := "Y", toField := "id",
                 junction := { table := "J", fromField := "aId",
                               toField := "yId" } }

/-- `fieldContrib` reads only the holder's name and junction flag, so it is
unchanged when the holder's field list is replaced. -/
theorem fieldContrib_set_fields (n : String) (t : TableDef) (fs : List FieldDef) :
    fieldContrib n { t with fields := fs } = fieldContrib n t := rfl

/-- A non-junction table contributes nothing in pass 2. -/
theorem junctionContrib_eq_nil (n : String) (t : TableDef)
    (hj : t.isJunction = false) : junctionContrib n t = [] := by
  simp [junctionContrib, hj]

/-- C3 counterexample. (i) A dangling reference is not effect-free: with the
single input table `X` whose field `yId` references the absent entity `Y`,
the graph still records a `OneRelation` on `X`'s own list, so it differs
from the graph built without that edge. (ii) On a junction holder a
dangling reference is not even confined to the holder's own list: junction
`J` with a live reference to `A` and a dangling reference to `Y` has two
reference fields, so pass 2 pushes a `ManyThroughRelation` onto `A`'s
list, whereas removing the dangling field leaves only one reference field
and pass 2 skips `J` entirely — `A`'s list differs. (iii)
`buildRelationGraph` is not total: a non-junction holder with an empty
name and a present target makes pass 1 evaluate `toTableVariableName ""`,
which throws (modelled as `none`). -/
theorem c3_counterexample :
    buildRelationGraph [tXdangle] = some [("X", [relXone])] ∧
    buildRelationGraph [{ tXdangle with fields := [] }] = some [("X", [])] ∧
    some [("X", [relXone])] ≠ some [("X", ([] : List Relation))] ∧
    buildRelationGraph [tAtarget, tJdangle] =
      some [("A", [relAthrough]), ("J", [relJoneA, relJoneY])] ∧
    buildRelationGraph [tAtarget, tJpruned] =
      some [("A", []), ("J", [relJoneA])] ∧
    ([relAthrough] : List Relation) ≠ [] ∧
    buildRelationGraph [tZlive, tEmptyName] = none := by
  decide

/-- C3 (amended): (a) `buildRelationGraph` never fails provided every table
name is non-empty and every reference targets a non-empty name — the JS
implementation throws only from `toTableVariableName` on an empty string;
(b) a dangling reference on a NON-JUNCTION holder contributes exactly one
relation, the `OneRelation` on the holder's own list (the holder's key is
always allocated); every other key's list is unchanged relative to the
graph built without the dangling field. The non-junction restriction is
essential: on a junction holder a dangling reference also changes the
reference-field count that gates pass 2, which can alter other keys'
lists. -/
theorem c3_no_throw_and_dangling (tables : List TableDef) :
    ((∀ u ∈ tables, u.name ≠ "") →
     (∀ u ∈ tables, ∀ f2 ∈ u.fields, ∀ r2 ∈ f2.references, r2.tableName ≠ "") →
     (buildRelationGraph tables).isSome = true) ∧
    (∀ (before after : List TableDef) (t : TableDef) (fb fa : List FieldDef)
       (f : FieldDef) (ref : FieldReference) (g g' : RelationGraph),
       tables = before ++ t :: after →
       t.fields = fb ++ f :: fa →
       f.references = some ref →
       ref.tableName ∉ tables.map (fun u => u.name) →
       t.isJunction = false →
       buildRelationGraph tables = some g →
       buildRelationGraph (before ++ { t with fields := fb ++ fa } :: after) = some g' →
       (∀ n, n ≠ t.name → mget g n = mget g' n) ∧
       (∃ x y, mget g' t.name = some (x ++ y) ∧
               mget g t.name = some (x ++ oneRelFor t f ref :: y))) := by
  constructor
  · intro h1 h2
    exact buildRelationGraph_isSome tables h1
      (fun u hu f2 hf2 r2 hr2 => h2 u hu f2 hf2 r2 (Option.mem_def.mpr hr2))
  · intro before after t fb fa f ref g g' htab hfld href hdang hj hg hg'
    have hnames : (before ++ { t with fields := fb ++ fa } :: after).map
        (fun u => u.name) = tables.map (fun u => u.name) := by
      rw [htab]
      simp only [List.map_append, List.map_cons]
    have hp1s : ∀ n, pass1Contrib n tables
        = pass1Contrib n before ++ (fb.flatMap (fieldContrib n t)
          ++ (fieldContrib n t f ++ fa.flatMap (fieldContrib n t)))
          ++ pass1Contrib n after := by
      intro n
      rw [htab]
      simp [pass1Contrib, List.flatMap_append, List.flatMap_cons, hfld,
        List.append_assoc]
    have hp1s' : ∀ n, pass1Contrib n (before ++ { t with fields := fb ++ fa } :: after)
        = pass1Contrib n before ++ (fb.flatMap (fieldContrib n t)
          ++ fa.flatMap (fieldContrib n t)) ++ pass1Contrib n after := by
      intro n
      simp [pass1Contrib, List.flatMap_append, List.flatMap_cons,
        List.append_assoc, fieldContrib_set_fields n t (fb ++ fa)]
    have hp2s : ∀ n, pass2Contrib n tables
        = pass2Contrib n before ++ pass2Contrib n after := by
      intro n
      rw [htab]
      simp [pass2Contrib, List.flatMap_append, List.flatMap_cons,
        junctionContrib_eq_nil n t hj]
    have hp2s' : ∀ n, pass2Contrib n (before ++ { t with fields := fb ++ fa } :: after)
        = pass2Contrib n before ++ pass2Contrib n after := by
      intro n
      simp [pass2Contrib, List.flatMap_append, List.flatMap_cons,
        junctionContrib_eq_nil n { t with fields := fb ++ fa } hj]
    constructor
    · intro n hn
      rw [buildRelationGraph_mget tables g hg n,
        buildRelationGraph_mget _ g' hg' n, hnames]
      by_cases hmem : n ∈ tables.map (fun u => u.name)
      · rw [if_pos hmem, if_pos hmem]
        have hrefne : ¬ (ref.tableName = n) := fun he => hdang (by rw [he]; exact hmem)
        have hn' : ¬ (t.name = n) := fun he => hn he.symm
        have hnil : fieldContrib n t f = [] := by
          simp [fieldContrib, href, hj, hn', hrefne]
        rw [hp1s n, hp1s' n, hp2s n, hp2s' n, hnil]
        simp [List.append_assoc]
      · rw [if_neg hmem, if_neg hmem]
    · have htmem : t.name ∈ tables.map (fun u => u.name) := by
        rw [htab]; simp
      have hrefne : ¬ (ref.tableName = t.name) := fun he =>
        hdang (by rw [he]; exact htmem)
      have hone : fieldContrib t.name t f = [oneRelFor t f ref] := by
        simp [fieldContrib, href, hj, hrefne]
      refine ⟨pass1Contrib t.name before ++ fb.flatMap (fieldContrib t.name t),
        fa.flatMap (fieldContrib t.name t) ++ pass1Contrib t.name after
          ++ (pass2Contrib t.name before ++ pass2Contrib t.name after), ?_, ?_⟩
      · rw [buildRelationGraph_mget _ g' hg' t.name, hnames, if_pos htmem,
          hp1s' t.name, hp2s' t.name]
        simp [List.append_assoc]
      · rw [buildRelationGraph_mget tables g hg t.name, if_pos htmem,
          hp1s t.name, hp2s t.name, hone]
        simp [List.append_assoc]

/-- C3 witness: the totality part applied at the bookstore fixture, and the
dangling-edge part applied at the single-table input `[tXdangle]`. -/
theorem c3_no_throw_and_dangling_witness :
    (buildRelationGraph bookstore).isSome = true ∧
    ((∀ n, n ≠ tXdangle.name →
        mget [("X", [relXone])] n = mget [("X", ([] : List Relation))] n) ∧
     (∃ x y, mget [("X", ([] : List Relation))] tXdangle.name = some (x ++ y) ∧
        mget [("X", [relXone])] tXdangle.name =
          some (x ++ oneRelFor tXdangle fldYId refYid :: y))) := by
  refine ⟨(c3_no_throw_and_dangling bookstore).1 (by decide) (by decide), ?_⟩
  exact (c3_no_throw_and_dangling [tXdangle]).2 [] [] tXdangle [] []
    fldYId refYid [("X", [relXone])] [("X", [])]
    rfl rfl rfl (by decide) rfl (by decide) (by decide)

/-! ## C7: pluralization and many-relation naming -/

/-- The first pluralization rule exactly as the specification words it: the
word ends in a CONSONANT followed by `y`, i.e. there IS a preceding
character and it is not a vowel. -/
def specConsonantYEnd (word : String) : Bool :=
  match word.data.reverse with
  | 'y' :: c :: _ => !(vowels.contains c)
  | _ => false

/-- `pluralize` as the specification words it (rules tried in order):
consonant+`y` → replace the `y` by `ies`; ending in s/sh/ch/x/z → append
`es`; any other word → append `s`. -/
def specPluralize (word : String) : String :=
  if specConsonantYEnd word then strDropLast word 1 ++ "ies"
  else if esEnd word then word ++ "es"
  else word ++ "s"

/-- Holder table named `Y` referencing the live `Z`: its reverse
`ManyRelation` is named `pluralize "y"`. -/
def tYholder : TableDef :=
  mkTable "Y" [mkField "zId" false (some { tableName := "Z", fieldName := "id" })] false

/-- The `OneRelation` deposited on `Y`'s own list. -/
def relYone : Relation :=
  .one { name := "z", fromTable := "Y", fromField := "zId",
         toTable := "Z", toField := "id", optional := false }

/-- A word ending in a vowel followed by `y` does not match the
s/sh/ch/x/z test. -/
theorem esEnd_of_vowelY (w : String) (h : vowelYEnd w = true) :
    esEnd w = false := by
  unfold vowelYEnd at h
  split at h
  · rename_i c rest heq
    unfold esEnd
    rw [heq]
    rfl
  · exact absurd h (by simp)

/-- Membership in a junction's pass-2 contribution forces the
`ManyThroughRelation` name to be the table-variable name of its target. -/
theorem mem_junctionContrib_name (n : String) (t : TableDef) (r : Relation)
    (hr : r ∈ junctionContrib n t) :
    ∃ m, r = .manyThrough m ∧ m.name = ttvnD m.toTable := by
  unfold junctionContrib at hr
  revert hr
  by_cases hj : t.isJunction
  · rw [if_pos hj]
    cases t.fields.filter (fun f => f.references.isSome) with
    | nil =>
      intro hr
      exact absurd hr (List.not_mem_nil r)
    | cons fA rest =>
      cases rest with
      | nil =>
        intro hr
        exact absurd hr (List.not_mem_nil r)
      | cons fB rest2 =>
        cases rest2 with
        | cons x rest3 =>
          intro hr
          exact absurd hr (List.not_mem_nil r)
        | nil =>
          show r ∈ (match fA.references, fB.references with
              | some refA, some refB => junctionPairContrib n t fA fB refA refB
              | _, _ => ([] : List Relation)) →
            ∃ m, r = Relation.manyThrough m ∧ m.name = ttvnD m.toTable
          cases fA.references with
          | none =>
            intro hr
            exact absurd hr (List.not_mem_nil r)
          | some refA =>
            cases fB.references with
            | none =>
              intro hr
              exact absurd hr (List.not_mem_nil r)
            | some refB =>
              intro hr
              replace hr : r ∈ junctionPairContrib n t fA fB refA refB := hr
              unfold junctionPairContrib at hr
              rcases List.mem_append.mp hr with hr | hr
              · by_cases hc : refA.tableName = n
                · rw [if_pos hc, List.mem_singleton] at hr
                  exact ⟨_, hr, rfl⟩
                · rw [if_neg hc] at hr
                  exact absurd hr (List.not_mem_nil r)
              · by_cases hc : refB.tableName = n
                · rw [if_pos hc, List.mem_singleton] at hr
                  exact ⟨_, hr, rfl⟩
                · rw [if_neg hc] at hr
                  exact absurd hr (List.not_mem_nil r)
  · rw [if_neg hj]
    intro hr
    exact absurd hr (List.not_mem_nil r)

/-- C7 counterexample: the claim's first rule requires a consonant BEFORE
the final `y`, but the source tests only `endsWith("y") && !/[aeiou]y$/`,
which the one-letter word `"y"` passes. An entity named `Y` therefore
yields a reverse `ManyRelation` named `"ies"`, where the claim's rules (no
preceding consonant → default rule) would name it `"ys"`. -/
theorem c7_counterexample :
    pluralize "y" = "ies" ∧
    specPluralize "y" = "ys" ∧
    buildRelationGraph [tZlive, tYholder] =
      some [("Z", [Relation.many { name := "ies", table := "Y" }]),
            ("Y", [relYone])] ∧
    ("ies" : String) ≠ specPluralize "y" := by
  decide

/-- C7 (amended): every `ManyRelation` in a built graph is named
`toTableVariableName` (lower-camel, then `pluralize`) of its holder
entity's name, and every `ManyThroughRelation` is named
`toTableVariableName` of its target entity's name; `pluralize` follows the
claim's three rules EXCEPT that its first rule fires on any word ending in
`y` not preceded by a vowel — including the bare word `"y"`, which has no
preceding consonant. -/
theorem c7_relation_naming (tables : List TableDef) :
    (∀ g, buildRelationGraph tables = some g →
     ∀ n l, mget g n = some l → ∀ r, r ∈ l →
       (∀ mr, r = Relation.many mr →
         ∃ t, t ∈ tables ∧ mr.table = t.name ∧ mr.name = ttvnD t.name) ∧
       (∀ mtr, r = Relation.manyThrough mtr → mtr.name = ttvnD mtr.toTable)) ∧
    (∀ c cs, ttvnD (String.mk (c :: cs)) = pluralize (String.mk (c.toLower :: cs))) ∧
    (∀ w, strEndsWith w "y" = true → vowelYEnd w = false →
       pluralize w = strDropLast w 1 ++ "ies") ∧
    (∀ w, strEndsWith w "y" = false → esEnd w = true → pluralize w = w ++ "es") ∧
    (∀ w, strEndsWith w "y" = false → esEnd w = false → pluralize w = w ++ "s") ∧
    (∀ w, vowelYEnd w = true → pluralize w = w ++ "s") := by
  refine ⟨?_, ?_, ?_, ?_, ?_, ?_⟩
  · intro g hg n l hl r hr
    have hm := buildRelationGraph_mget tables g hg n
    rw [hl] at hm
    by_cases hmem : n ∈ tables.map (fun u => u.name)
    · rw [if_pos hmem] at hm
      have hleq : l = pass1Contrib n tables ++ pass2Contrib n tables :=
        Option.some.inj hm
      subst hleq
      rcases List.mem_append.mp hr with hr1 | hr2
      · constructor
        · intro mr hmr
          unfold pass1Contrib at hr1
          rcases List.mem_flatMap.mp hr1 with ⟨t, ht, hrt⟩
          rcases List.mem_flatMap.mp hrt with ⟨f, hf, hrf⟩
          rcases mem_fieldContrib n t f r hrf with ⟨ref, _, _, hre⟩ | ⟨ref, _, _, _, hre⟩
          · rw [hmr] at hre
            exact absurd hre (by simp [oneRelFor])
          · rw [hmr] at hre
            have h3 : mr = { name := ttvnD t.name, table := t.name } := by
              injection hre
            subst h3
            exact ⟨t, ht, rfl, rfl⟩
        · intro mtr hmtr
          have hth := pass1Contrib_not_through n tables r hr1
          rw [hmtr] at hth
          exact absurd hth (by simp [isThrough])
      · constructor
        · intro mr hmr
          have hth := pass2Contrib_through n tables r hr2
          rw [hmr] at hth
          exact absurd hth (by simp [isThrough])
        · intro mtr hmtr
          unfold pass2Contrib at hr2
          rcases List.mem_flatMap.mp hr2 with ⟨t, ht, hrt⟩
          rcases mem_junctionContrib_name n t r hrt with ⟨m, hre, hname⟩
          rw [hmtr] at hre
          have h3 : mtr = m := by injection hre
          rw [h3]
          exact hname
    · rw [if_neg hmem] at hm
      exact absurd hm (by simp)
  · intro c cs
    rfl
  · intro w hy hv
    simp [pluralize, hy, hv]
  · intro w hy hes
    simp [pluralize, hy, hes]
  · intro w hy hes
    simp [pluralize, hy, hes]
  · intro w hv
    simp [pluralize, hv, esEnd_of_vowelY w hv]

/-- C7 witness: the naming part applied to the bookstore graph (`Author`'s
reverse many-relation `"books"` and `Book`'s through-relation `"genres"`),
and the three pluralization rules applied to concrete words. -/
theorem c7_relation_naming_witness :
    (∃ t, t ∈ bookstore ∧ ("Book" : String) = t.name ∧
      ("books" : String) = ttvnD t.name) ∧
    ("genres" : String) = ttvnD "Genre" ∧
    pluralize "story" = strDropLast "story" 1 ++ "ies" ∧
    pluralize "box" = "box" ++ "es" ∧
    pluralize "author" = "author" ++ "s" ∧
    pluralize "day" = "day" ++ "s" := by
  refine ⟨?_, ?_, ?_, ?_, ?_, ?_⟩
  · exact ((c7_relation_naming bookstore).1 gBookstore (by decide) "Author" lAuthor
      (by decide) (Relation.many { name := "books", table := "Book" }) (by decide)).1
      { name := "books", table := "Book" } rfl
  · exact ((c7_relation_naming bookstore).1 gBookstore (by decide) "Book" lBook
      (by decide)
      (Relation.manyThrough
        { name := "genres", fromTable := "Book", fromField := "bookId",
          toTable := "Genre", toField := "genreId",
          junction := { table := "BookGenre", fromField := "bookId",
                        toField := "genreId" } })
      (by decide)).2
      { name := "genres", fromTable := "Book", fromField := "bookId",
        toTable := "Genre", toField := "genreId",
        junction := { table := "BookGenre", fromField := "bookId",
                      toField := "genreId" } } rfl
  · exact (c7_relation_naming bookstore).2.2.1 "story" (by decide) (by decide)
  · exact (c7_relation_naming bookstore).2.2.2.1 "box" (by decide) (by decide)
  · exact (c7_relation_naming bookstore).2.2.2.2.1 "author" (by decide) (by decide)
  · exact (c7_relation_naming bookstore).2.2.2.2.2 "day" (by decide)

end Spec2Proof
